import Mathlib

/-!
Shallow embedding of the file-mutation and code-classification core of the
`autonomous-code-assistant` repository
(`src/autonomous_code_assistant/file_operations/{backup,writer,reader,analyzer}.py`
and `core.py`), together with theorems settling the specification claims.

Python strings are modelled as `List Char` (sequences of code points) and
`pathlib.Path` values as lists of components (`List (List Char)`); path
equality is component-list equality, as in `pathlib`.
-/

namespace ACA

/-- Python `str` as a list of code points. -/
abbrev Str := List Char

/-- `pathlib.Path` as its list of components; the last component is the
filename.  `Path("sub/file.py")` is `["sub", "file.py"]`. -/
abbrev FPath := List Str

/-- Convenience: the code points of a Lean string literal. -/
def lit (s : String) : Str := s.data

/-- Python `s.split(sep)` for a one-character separator: splits at every
occurrence, keeping empty pieces (`"a__b".split("_") == ["a", "", "b"]`). -/
def pySplit (sep : Char) : Str → List Str
  | [] => [[]]
  | c :: cs =>
    let r := pySplit sep cs
    if c = sep then [] :: r
    else
      match r with
      | [] => [[c]]
      | h :: t => (c :: h) :: t

/-- Python `sep.join(pieces)` for a one-character separator. -/
def pyJoin (sep : Char) : List Str → Str
  | [] => []
  | [s] => s
  | s :: rest => s ++ sep :: pyJoin sep rest

/-- Index of the last occurrence of `c` in `s` (Python `s.rfind(c)`),
`none` when absent. -/
def rfindIdx (c : Char) : Str → Option Nat
  | [] => none
  | x :: xs =>
    match rfindIdx c xs with
    | some j => some (j + 1)
    | none => if x = c then some 0 else none

/-- `pathlib.PurePath.suffix` of a filename: with `i` the index of the last
dot, the slice `name[i:]` when `0 < i < len(name) - 1`, else `""`. -/
def pySuffix (name : Str) : Str :=
  match rfindIdx '.' name with
  | none => []
  | some i => if 0 < i ∧ i < name.length - 1 then name.drop i else []

/-- `pathlib.PurePath.stem` of a filename: the name with its suffix removed. -/
def pyStem (name : Str) : Str :=
  name.take (name.length - (pySuffix name).length)

/-- The filename (last component) of a path. -/
def FPath.fname (p : FPath) : Str := p.getLastD []

/-- `Path.stem` of a path. -/
def FPath.stem (p : FPath) : Str := pyStem p.fname

/-- `Path.suffix` of a path. -/
def FPath.ext (p : FPath) : Str := pySuffix p.fname

/-! ### Backup store (`file_operations/backup.py`, class `BackupManager`) -/

/-- The output of `datetime.now().strftime("%Y%m%d_%H%M%S")`, kept as its two
digit runs.  `fmt` reproduces the formatted string. -/
structure Timestamp where
  date : Str
  time : Str
deriving DecidableEq

/-- Well-formedness of a `strftime("%Y%m%d_%H%M%S")` result: both runs are
nonempty and all digits (so they contain neither `_` nor `.`). -/
def Timestamp.valid (ts : Timestamp) : Bool :=
  decide (ts.date ≠ []) && decide (ts.time ≠ []) &&
    ts.date.all Char.isDigit && ts.time.all Char.isDigit

/-- The formatted timestamp `"%Y%m%d_%H%M%S"`. -/
def Timestamp.fmt (ts : Timestamp) : Str := ts.date ++ '_' :: ts.time

/-- `backup_name = f"{filepath.stem}_{timestamp}{filepath.suffix}.bak"`
(from `BackupManager.create_backup`). -/
def backupName (fp : FPath) (ts : Timestamp) : Str :=
  fp.stem ++ '_' :: ts.fmt ++ fp.ext ++ lit ".bak"

/-- A file sitting in the backup directory: its filename, its bytes, and its
inode change time `st_ctime` (a logical clock tick in the model). -/
structure BackupEntry where
  name : Str
  content : Str
  created : Nat
deriving DecidableEq

/-- The backup directory plus the logical clock that stamps `st_ctime`. -/
structure BackupDir where
  entries : List BackupEntry
  clock : Nat
deriving DecidableEq

/-- `shutil.copy2(src, backup_dir / n)`: overwrite the entry named `n` if it
exists (its change time updates), else append a new entry; either way the
clock advances. -/
def BackupDir.put (d : BackupDir) (n : Str) (c : Str) : BackupDir :=
  if d.entries.any (fun e => e.name = n) then
    { entries := d.entries.map
        (fun e => if e.name = n then ⟨n, c, d.clock⟩ else e),
      clock := d.clock + 1 }
  else
    { entries := d.entries ++ [⟨n, c, d.clock⟩], clock := d.clock + 1 }

/-- The filename computation inside `BackupManager._infer_original_path`:
split `name` (the backup filename with `.bak` dropped) on `_`; with at least
three pieces, rejoin all but the last two and reattach the original extension
when `name` contains a dot; otherwise keep `name`. -/
def inferOriginalName (name : Str) : Str :=
  if 3 ≤ (pySplit '_' name).length then
    if name.contains '.' then
      pyJoin '_' ((pySplit '_' name).dropLast.dropLast) ++ pySuffix name
    else
      pyJoin '_' ((pySplit '_' name).dropLast.dropLast)
  else name

/-- `BackupManager._infer_original_path`: drop `.bak` from the backup
filename and undo the timestamp insertion.  The result is always a
single-component path. -/
def inferOriginalPath (backupPath : FPath) : FPath :=
  [inferOriginalName (pyStem backupPath.fname)]

/-- The filter applied by `BackupManager.list_backups`: the glob `*.bak`
together with the optional original-path comparison
`backup_info['original_path'] == Path(filepath)`. -/
def backupMatches (fp : Option FPath) (e : BackupEntry) : Bool :=
  (lit ".bak").isSuffixOf e.name &&
    match fp with
    | none => true
    | some p => decide (inferOriginalPath [e.name] = p)

/-- Descending-by-`created` comparison used to model
`sorted(backups, key=lambda x: x['created'], reverse=True)` (a stable sort). -/
def createdDesc (a b : BackupEntry) : Prop := b.created ≤ a.created

instance : DecidableRel createdDesc := fun a b => Nat.decLe b.created a.created

/-- `BackupManager.list_backups`: the matching entries, newest first. -/
def listBackups (d : BackupDir) (fp : Option FPath) : List BackupEntry :=
  (d.entries.filter (backupMatches fp)).insertionSort createdDesc

/-- `BackupManager._cleanup_old_backups` with retention cap `K`
(`self.max_backups`): when more than `K` backups match the original path,
unlink every backup beyond the newest `K`. -/
def cleanupOldBackups (K : Nat) (d : BackupDir) (fp : FPath) : BackupDir :=
  if K = 0 then d
  else if K < (listBackups d (some fp)).length then
    ⟨d.entries.filter
      (fun e => ¬ ((listBackups d (some fp)).drop K).any
        (fun x => x.name = e.name)),
      d.clock⟩
  else d

/-- A flat filesystem outside the backup directory: a map from paths to file
contents, `none` meaning the path does not exist. -/
def FS := FPath → Option Str

/-- `Path.exists()` / `open(...).read()`. -/
def FS.read (fs : FS) (p : FPath) : Option Str := fs p

/-- Write (create or overwrite) `p ↦ c`. -/
def FS.write (fs : FS) (p : FPath) (c : Str) : FS :=
  fun q => if q = p then some c else fs q

/-- Remove `p` (`unlink`). -/
def FS.erase (fs : FS) (p : FPath) : FS :=
  fun q => if q = p then none else fs q

theorem FS.read_write (fs : FS) (p : FPath) (c : Str) :
    (fs.write p c).read p = some c := by
  simp [FS.read, FS.write]

theorem FS.read_write_ne (fs : FS) {p q : FPath} (c : Str) (h : q ≠ p) :
    (fs.write p c).read q = fs.read q := by
  simp [FS.read, FS.write, h]

theorem FS.read_erase_ne (fs : FS) {p q : FPath} (h : q ≠ p) :
    (fs.erase p).read q = fs.read q := by
  simp [FS.read, FS.erase, h]

/-- `BackupManager.create_backup`: error when the source is missing,
otherwise copy the file into the backup directory under its timestamped name
and run retention cleanup for that original path. -/
def createBackup (K : Nat) (fs : FS) (d : BackupDir) (fp : FPath)
    (ts : Timestamp) : Except Unit (BackupDir × Str) :=
  match fs.read fp with
  | none => .error ()
  | some content =>
    let bname := backupName fp ts
    let d1 := d.put bname content
    .ok (cleanupOldBackups K d1 fp, bname)

/-- `BackupManager.restore_backup` for a backup living in the backup
directory: error when the backup is missing; otherwise copy it over
`target` when given, else over the inferred original path. -/
def restoreBackup (d : BackupDir) (fs : FS) (bname : Str)
    (target : Option FPath) : Except Unit FS :=
  match d.entries.find? (fun e => e.name = bname) with
  | none => .error ()
  | some e =>
    let tgt :=
      match target with
      | some t => t
      | none => inferOriginalPath [bname]
    .ok (fs.write tgt e.content)

/-! ### Atomic writer (`file_operations/writer.py`, class `FileWriter`)

The writer is modelled on a POSIX filesystem (`os.name != 'nt'`), where
`shutil.move` of the temp file over the target is a single atomic rename.
`tempfile.mkstemp` is modelled as creating the (exclusively fresh) path
`.{name}.{nonce}.tmp` next to the target; if that path already exists the
model reports an error where the real `mkstemp` would re-probe.  Failures of
the temp-file write and of the rename are injected through a `WFail`
parameter; a failing temp write leaves the prefix that reached the temp file
(`tmpPart`) behind before the cleanup `unlink`. -/

/-- Constructor arguments of `FileWriter`. -/
structure WriterCfg where
  create_backups : Bool
  backup_suffix : Str
deriving DecidableEq

/-- Injected failure point inside `FileWriter._write_atomic`. -/
inductive WFail
  | noFail
  | atTempWrite
  | atRename
deriving DecidableEq

/-- `pathlib.Path.with_suffix`: replace the filename's suffix. -/
def withSuffix (p : FPath) (newSuf : Str) : FPath :=
  p.dropLast ++ [pyStem p.fname ++ newSuf]

/-- The candidate backup path probed at counter `k` by
`FileWriter._create_backup`: `filepath.with_suffix(suffix + backup_suffix)`
for `k = 0`, then that path re-suffixed with `.{k}`. -/
def backupCandidate (orig : FPath) (cfg : WriterCfg) (k : Nat) : FPath :=
  if k = 0 then withSuffix orig (FPath.ext orig ++ cfg.backup_suffix)
  else
    withSuffix (withSuffix orig (FPath.ext orig ++ cfg.backup_suffix))
      (FPath.ext (withSuffix orig (FPath.ext orig ++ cfg.backup_suffix)) ++
        '.' :: (Nat.repr k).data)

/-- The `while backup_path.exists()` probe of `FileWriter._create_backup`,
with fuel standing in for the unbounded counter (`none` only when the fuel
runs out, which a caller can always avoid). -/
def findBackupPath (fs : FS) (orig : FPath) (cfg : WriterCfg) :
    Nat → Nat → Option FPath
  | 0, _ => none
  | fuel + 1, k =>
    if (fs.read (backupCandidate orig cfg k)).isSome then
      findBackupPath fs orig cfg fuel (k + 1)
    else some (backupCandidate orig cfg k)

/-- The temp path created by `tempfile.mkstemp(dir=filepath.parent,
prefix=f".{filepath.name}.", suffix=".tmp")`, with `nonce` the random part. -/
def tempPath (p : FPath) (nonce : Str) : FPath :=
  p.dropLast ++ ['.' :: (p.fname ++ '.' :: (nonce ++ lit ".tmp"))]

/-- Result of a writer run: the successive filesystem states after each
mutation, the final state, and whether the call returned without raising. -/
structure WResult where
  trace : List FS
  final : FS
  ok : Bool

/-- `FileWriter._write_atomic` (POSIX branch) with failure injection. -/
def writeAtomic (fs : FS) (p : FPath) (content tmpPart : Str) (tmp : FPath)
    (fail : WFail) : WResult :=
  if (fs.read tmp).isSome then
    ⟨[], fs, false⟩
  else if fail = WFail.atTempWrite then
    ⟨[fs.write tmp [], (fs.write tmp []).write tmp tmpPart,
        ((fs.write tmp []).write tmp tmpPart).erase tmp],
      ((fs.write tmp []).write tmp tmpPart).erase tmp, false⟩
  else if fail = WFail.atRename then
    ⟨[fs.write tmp [], (fs.write tmp []).write tmp content,
        ((fs.write tmp []).write tmp content).erase tmp],
      ((fs.write tmp []).write tmp content).erase tmp, false⟩
  else
    ⟨[fs.write tmp [], (fs.write tmp []).write tmp content,
        (((fs.write tmp []).write tmp content).erase tmp).write p content],
      (((fs.write tmp []).write tmp content).erase tmp).write p content, true⟩

/-- `FileWriter.write_file`: parent creation (a no-op in the flat model),
optional pre-write sibling backup, atomic write, and either best-effort
backup cleanup (on success) or best-effort backup restore followed by
re-raising (on failure). -/
def writeFile (cfg : WriterCfg) (fs : FS) (p : FPath) (content : Str)
    (nonce : Str) (tmpPart : Str) (fail : WFail) (fuel : Nat) : WResult :=
  match fs.read p, cfg.create_backups with
  | some old, true =>
    match findBackupPath fs p cfg fuel 0 with
    | none => ⟨[], fs, false⟩
    | some bp =>
      let fs1 := fs.write bp old
      let r := writeAtomic fs1 p content tmpPart (tempPath p nonce) fail
      if r.ok then
        if (r.final.read bp).isSome then
          ⟨fs1 :: r.trace ++ [r.final.erase bp], r.final.erase bp, true⟩
        else ⟨fs1 :: r.trace, r.final, true⟩
      else
        match r.final.read bp with
        | some bc =>
          ⟨fs1 :: r.trace ++ [(r.final.erase bp).write p bc],
            (r.final.erase bp).write p bc, false⟩
        | none => ⟨fs1 :: r.trace, r.final, false⟩
  | _, _ =>
    writeAtomic fs p content tmpPart (tempPath p nonce) fail

/-! ### Text probe (`file_operations/reader.py`, class `FileReader`) -/

/-- A raw byte string, each entry `< 256`. -/
abbrev Bytes := List Nat

/-- `FileReader.TEXT_EXTENSIONS`. -/
def TEXT_EXTENSIONS : List Str :=
  [".py", ".js", ".ts", ".jsx", ".tsx", ".java", ".cpp", ".c", ".h", ".hpp",
   ".cs", ".go", ".rs", ".php", ".rb", ".swift", ".kt", ".scala", ".dart",
   ".html", ".htm", ".css", ".scss", ".sass", ".less", ".xml", ".json",
   ".yaml", ".yml", ".toml", ".ini", ".cfg", ".conf", ".md", ".rst", ".txt",
   ".sql", ".sh", ".bash", ".zsh", ".fish", ".ps1", ".bat", ".cmd",
   ".dockerfile", ".makefile", ".cmake", ".gradle", ".maven", ".pom",
   ".lock", ".gitignore", ".gitattributes", ".editorconfig", ".flake8",
   ".pylintrc", ".mypy.ini"].map lit

/-- `FileReader.BINARY_EXTENSIONS`. -/
def BINARY_EXTENSIONS : List Str :=
  [".pyc", ".pyo", ".pyd", ".exe", ".dll", ".so", ".dylib", ".o", ".obj",
   ".a", ".lib", ".jar", ".war", ".ear", ".zip", ".tar", ".gz", ".bz2",
   ".xz", ".7z", ".rar", ".pdf", ".doc", ".docx", ".xls", ".xlsx", ".ppt",
   ".pptx", ".png", ".jpg", ".jpeg", ".gif", ".bmp", ".tiff", ".svg",
   ".ico", ".mp3", ".mp4", ".avi", ".mov", ".wmv", ".flv", ".webm", ".ogg",
   ".wav"].map lit

/-- The structured MIME types accepted besides `text/*`. -/
def MIME_ALLOW : List Str :=
  ["application/json", "application/xml", "application/javascript",
   "application/x-python-code"].map lit

/-- `str.lower()` on ASCII extension strings. -/
def pyLower (s : Str) : Str := s.map Char.toLower

/-- A UTF-8 continuation byte (`10xxxxxx`). -/
def isCont (b : Nat) : Bool := 128 ≤ b && b ≤ 191

/-- Strict UTF-8 validity as checked by `bytes.decode('utf-8')`: rejects
overlong forms, surrogates, and code points above `U+10FFFF`. -/
def utf8Valid : Bytes → Bool
  | [] => true
  | b :: bs =>
    if b ≤ 127 then utf8Valid bs
    else if 194 ≤ b && b ≤ 223 then
      match bs with
      | c1 :: rest => isCont c1 && utf8Valid rest
      | [] => false
    else if b = 224 then
      match bs with
      | c1 :: c2 :: rest =>
        (160 ≤ c1 && c1 ≤ 191) && isCont c2 && utf8Valid rest
      | _ => false
    else if 225 ≤ b && b ≤ 236 then
      match bs with
      | c1 :: c2 :: rest => isCont c1 && isCont c2 && utf8Valid rest
      | _ => false
    else if b = 237 then
      match bs with
      | c1 :: c2 :: rest =>
        (128 ≤ c1 && c1 ≤ 159) && isCont c2 && utf8Valid rest
      | _ => false
    else if 238 ≤ b && b ≤ 239 then
      match bs with
      | c1 :: c2 :: rest => isCont c1 && isCont c2 && utf8Valid rest
      | _ => false
    else if b = 240 then
      match bs with
      | c1 :: c2 :: c3 :: rest =>
        (144 ≤ c1 && c1 ≤ 191) && isCont c2 && isCont c3 && utf8Valid rest
      | _ => false
    else if 241 ≤ b && b ≤ 243 then
      match bs with
      | c1 :: c2 :: c3 :: rest =>
        isCont c1 && isCont c2 && isCont c3 && utf8Valid rest
      | _ => false
    else if b = 244 then
      match bs with
      | c1 :: c2 :: c3 :: rest =>
        (128 ≤ c1 && c1 ≤ 143) && isCont c2 && isCont c3 && utf8Valid rest
      | _ => false
    else false

/-- `bytes.decode('latin1')` succeeds on every byte string (all 256 bytes
map to `U+00`–`U+FF`). -/
def latin1Ok (_s : Bytes) : Bool := true

/-- `bytes.decode('cp1252')` fails exactly on the five unmapped bytes. -/
def cp1252Ok (s : Bytes) : Bool :=
  s.all (fun b => !(b = 129 || b = 141 || b = 143 || b = 144 || b = 157))

/-- `bytes.decode('iso-8859-1')` succeeds on every byte string. -/
def iso88591Ok (_s : Bytes) : Bool := true

/-- The ambient behaviour of `mimetypes.guess_type` and of opening the file
and reading up to 8 KiB of raw bytes; `sample = none` models any `open` /
`read` failure. -/
structure ProbeEnv where
  mimeGuess : FPath → Option Str
  sample : FPath → Option Bytes

/-- `FileReader.is_text_file`: binary deny-list, then text allow-list, then
MIME guess, then the 8 KiB content probe (NUL check, UTF-8, then the
fallback decode chain), with any read failure mapped to `false`. -/
def isTextFile (env : ProbeEnv) (p : FPath) : Bool :=
  if pyLower p.ext ∈ BINARY_EXTENSIONS then false
  else if pyLower p.ext ∈ TEXT_EXTENSIONS then true
  else
    match env.mimeGuess p with
    | some m => (lit "text/").isPrefixOf m || m ∈ MIME_ALLOW
    | none =>
      match env.sample p with
      | none => false
      | some s =>
        if (0 : Nat) ∈ s then false
        else if utf8Valid s then true
        else if latin1Ok s then true
        else if cp1252Ok s then true
        else if iso88591Ok s then true
        else false

/-! ### Project scanner (`core.py`, `CodeAssistant.analyze_project`)

The per-file pipeline (ignore check, text check, `analyze_file_structure`)
is abstracted into boolean classifiers and an analysis function that either
returns a `FileAnalysis` or raises (`Except.error` carrying the message),
exactly mirroring the `try`/`except` around the loop body. -/

/-- The fields of the per-file analysis dictionary used by the aggregate. -/
structure FileAnalysis where
  language : Option Str
  dependencies : List Str
  line_count : Nat
deriving DecidableEq

/-- The mutable `analysis` dictionary of `analyze_project`. -/
structure ScanState where
  files : List FileAnalysis
  languages : List (Str × Nat)
  dependencies : List Str
  total_files : Nat
  total_lines : Nat
  errors : List (FPath × Str)
deriving DecidableEq

/-- `analysis["languages"][language] = analysis["languages"].get(language, 0) + 1`
on an insertion-ordered dict. -/
def bumpLang (h : List (Str × Nat)) (lang : Str) : List (Str × Nat) :=
  if h.any (fun e => e.1 = lang) then
    h.map (fun e => if e.1 = lang then (e.1, e.2 + 1) else e)
  else h ++ [(lang, 1)]

/-- Adding one element to the Python `set` (insertion-ordered model). -/
def insertDep (ds : List Str) (d : Str) : List Str :=
  if d ∈ ds then ds else ds ++ [d]

/-- `analysis["dependencies"].update(new)`. -/
def unionDeps (ds : List Str) (new : List Str) : List Str :=
  new.foldl insertDep ds

/-- `if language: analysis["languages"][language] += 1` viewed as one step. -/
def stepLang (h : List (Str × Nat)) (fa : FileAnalysis) : List (Str × Nat) :=
  match fa.language with
  | some lang => bumpLang h lang
  | none => h

/-- The per-success state update in the loop body of `analyze_project`. -/
def scanStep (st : ScanState) (fa : FileAnalysis) : ScanState :=
  ⟨st.files ++ [fa],
    stepLang st.languages fa,
    unionDeps st.dependencies fa.dependencies,
    st.total_files + 1,
    st.total_lines + fa.line_count,
    st.errors⟩

/-- The file loop of `analyze_project`: skip ignored and non-text entries,
accumulate the analysis of each survivor, and turn a raised per-file error
into an entry of the error list without stopping. -/
def analyzeLoop (ig tx : FPath → Bool)
    (an : FPath → Except Str FileAnalysis) :
    List FPath → ScanState → ScanState
  | [], st => st
  | f :: rest, st =>
    if ig f then analyzeLoop ig tx an rest st
    else if tx f then
      match an f with
      | .ok fa => analyzeLoop ig tx an rest (scanStep st fa)
      | .error msg =>
        analyzeLoop ig tx an rest
          ⟨st.files, st.languages, st.dependencies, st.total_files,
            st.total_lines, st.errors ++ [(f, msg)]⟩
    else analyzeLoop ig tx an rest st

/-- Python string `<` (lexicographic by code point, then by length). -/
def strLe : Str → Str → Bool
  | [], _ => true
  | _ :: _, [] => false
  | a :: as, b :: bs => if a = b then strLe as bs else decide (a < b)

def strLeProp (a b : Str) : Prop := strLe a b = true

instance : DecidableRel strLeProp := fun a b => by
  unfold strLeProp
  infer_instance

/-- `CodeAssistant.analyze_project` on an enumerated file list: run the loop
from the empty aggregate and convert the dependency set to a sorted list. -/
def analyzeProject (ig tx : FPath → Bool)
    (an : FPath → Except Str FileAnalysis) (files : List FPath) : ScanState :=
  let st := analyzeLoop ig tx an files ⟨[], [], [], 0, 0, []⟩
  ⟨st.files, st.languages, st.dependencies.insertionSort strLeProp,
    st.total_files, st.total_lines, st.errors⟩

/-! ### A small regex engine for the classifier's fixed pattern tables
(`file_operations/analyzer.py`)

Python's `re` backtracking semantics for the exact constructs the tables
use: character classes, concatenation, alternation, greedy `*`/`+`/`?`,
multiline `^`, `\b`, and a single capture group.  Matching is
continuation-passing (leftmost match, left alternative first, greedy
repetition with backtracking), with fuel bounding repetition unrolling: a
repetition stops consuming when the fuel runs out or the body stops
advancing, and all callers pass fuel larger than the subject length, which
a non-empty-advancing body can never exhaust. -/

/-- Python `\w` (ASCII part). -/
def isWordChar (c : Char) : Bool := c.isAlphanum || c = '_'

/-- Python `\s` (ASCII part). -/
def pyIsSpace (c : Char) : Bool := c = ' ' || (9 ≤ c.toNat && c.toNat ≤ 13)

/-- Regular expressions over the constructs used by `CodeAnalyzer`. -/
inductive RE
  | cls (f : Char → Bool)
  | eps
  | seq (a b : RE)
  | alt (a b : RE)
  | star (a : RE)
  | plus (a : RE)
  | opt (a : RE)
  | bol
  | wordb
  | grp (a : RE)

/-- Whether the character at `i` (if any) is a word character. -/
def wordAt (s : Str) (i : Nat) : Bool :=
  match s.get? i with
  | some c => isWordChar c
  | none => false

/-- The match result fed to continuations: end position and the capture
span, if the single group has matched. -/
abbrev MRes := Nat × Option (Nat × Nat)

/-- Backtracking matcher: try `re` at position `i` of `s` with capture state
`cap`, calling the continuation `k` on every candidate way of matching and
returning its first success.  The structural fuel bounds the recursion
depth; every caller supplies more than any terminating Python match can
consume. -/
def mat (s : Str) : Nat → RE → Nat → Option (Nat × Nat) →
    (Nat → Option (Nat × Nat) → Option MRes) → Option MRes
  | 0, _, _, _, _ => none
  | fuel + 1, re, i, cap, k =>
    match re with
    | .cls f =>
      match s.get? i with
      | some c => if f c then k (i + 1) cap else none
      | none => none
    | .eps => k i cap
    | .seq a b =>
      mat s fuel a i cap (fun j cap2 => mat s fuel b j cap2 k)
    | .alt a b =>
      match mat s fuel a i cap k with
      | some r => some r
      | none => mat s fuel b i cap k
    | .star a =>
      match mat s fuel a i cap
          (fun j cap2 =>
            if i < j then mat s fuel (.star a) j cap2 k else none) with
      | some r => some r
      | none => k i cap
    | .plus a =>
      mat s fuel a i cap (fun j cap2 => mat s fuel (.star a) j cap2 k)
    | .opt a =>
      match mat s fuel a i cap k with
      | some r => some r
      | none => k i cap
    | .bol =>
      if i = 0 then k i cap
      else if s.get? (i - 1) = some (Char.ofNat 10) then k i cap
      else none
    | .wordb =>
      if (if i = 0 then false else wordAt s (i - 1)) ≠ wordAt s i then
        k i cap
      else none
    | .grp a =>
      mat s fuel a i cap (fun j _ => k j (some (i, j)))

/-- Number of constructors of a pattern, for the fuel bound. -/
def reSize : RE → Nat
  | .cls _ => 1
  | .eps => 1
  | .seq a b => reSize a + reSize b + 1
  | .alt a b => reSize a + reSize b + 1
  | .star a => reSize a + 1
  | .plus a => reSize a + 2
  | .opt a => reSize a + 1
  | .bol => 1
  | .wordb => 1
  | .grp a => reSize a + 1

/-- Ample fuel: a match consumes at most one fuel unit per visited pattern
node, and repetition bodies must advance, so the depth is below
`(|s| + 2) * (size + 2)`. -/
def bigFuel (re : RE) (s : Str) : Nat :=
  (s.length + 2) * (reSize re + 2)

/-- Attempt a match of `re` anchored at position `i`. -/
def tryMatch (re : RE) (s : Str) (i : Nat) : Option MRes :=
  mat s (bigFuel re s) re i none (fun j cap => some (j, cap))

/-- `re.findall` scan: non-overlapping matches from the left, advancing past
each match (one position past an empty match). -/
def scanAll (re : RE) (s : Str) : Nat → Nat → List (Nat × MRes)
  | 0, _ => []
  | fuel + 1, i =>
    if s.length < i then []
    else
      match tryMatch re s i with
      | some (e, cap) =>
        (i, e, cap) ::
          (if i < e then scanAll re s fuel e else scanAll re s fuel (e + 1))
      | none => scanAll re s fuel (i + 1)

/-- `len(re.findall(pattern, s))` (no groups or ignoring them). -/
def findallCount (re : RE) (s : Str) : Nat :=
  (scanAll re s (s.length + 2) 0).length

/-- `re.findall(pattern, s)` for a pattern with one capture group: the list
of captured substrings. -/
def findallGroup1 (re : RE) (s : Str) : List Str :=
  (scanAll re s (s.length + 2) 0).filterMap
    (fun r => r.2.2.map (fun sp => ((s.drop sp.1).take (sp.2 - sp.1))))

/-! Combinators used to transcribe the pattern strings. -/

/-- A literal character. -/
def rch (c : Char) : RE := RE.cls (fun x => x = c)

/-- A literal string. -/
def rstr (t : String) : RE :=
  t.data.foldr (fun c r => RE.seq (rch c) r) RE.eps

/-- Concatenation of a pattern list. -/
def rcat (l : List RE) : RE := l.foldr RE.seq RE.eps

/-- `.` (any character but newline). -/
def rdot : RE := RE.cls (fun c => !(c = Char.ofNat 10))

/-- `\s` / `\w`. -/
def rws : RE := RE.cls pyIsSpace

def rwc : RE := RE.cls isWordChar

/-- `["\']` and `[^"\']`. -/
def rquote : RE := RE.cls (fun c => c = Char.ofNat 34 || c = Char.ofNat 39)

def rnotquote : RE := RE.cls (fun c => !(c = Char.ofNat 34 || c = Char.ofNat 39))

/-- The keyword occurrence pattern `\b{keyword}\b`. -/
def kwRE (kw : Str) : RE :=
  RE.seq RE.wordb (kw.foldr (fun c r => RE.seq (rch c) r) RE.wordb)

/-! ### The classifier tables (`CodeAnalyzer.LANGUAGE_PATTERNS` and
`CodeAnalyzer.DEPENDENCY_PATTERNS`), transcribed pattern by pattern -/

/-- One value of the `LANGUAGE_PATTERNS` dict. -/
structure LangConfig where
  extensions : List Str
  patterns : List RE
  keywords : List Str

/-- `(\w+(?:\.\w+)*)` — a captured dotted name. -/
def dottedName : RE :=
  RE.grp (RE.seq (RE.plus rwc) (RE.star (RE.seq (rch '.') (RE.plus rwc))))

def pythonConfig : LangConfig :=
  ⟨[".py", ".pyx", ".pyi"].map lit,
   [rcat [RE.bol, RE.star rws, rstr "import", RE.plus rws, RE.plus rwc],
    rcat [RE.bol, RE.star rws, rstr "from", RE.plus rws, RE.plus rwc,
      RE.plus rws, rstr "import"],
    rcat [RE.bol, RE.star rws, rstr "def", RE.plus rws, RE.plus rwc,
      RE.star rws, rch '('],
    rcat [RE.bol, RE.star rws, rstr "class", RE.plus rws, RE.plus rwc,
      RE.star rws, RE.cls (fun c => c = '(' || c = ':')],
    rcat [RE.bol, RE.star rws, rstr "if", RE.plus rws, rstr "__name__",
      RE.star rws, rstr "==", RE.star rws, rquote, rstr "__main__", rquote]],
   ["def", "class", "import", "from", "if", "elif", "else", "for", "while",
    "try", "except"].map lit⟩

def javascriptConfig : LangConfig :=
  ⟨[".js", ".mjs"].map lit,
   [rcat [RE.bol, RE.star rws, rstr "function", RE.plus rws, RE.plus rwc,
      RE.star rws, rch '('],
    rcat [RE.bol, RE.star rws, rstr "const", RE.plus rws, RE.plus rwc,
      RE.star rws, rch '='],
    rcat [RE.bol, RE.star rws, rstr "let", RE.plus rws, RE.plus rwc,
      RE.star rws, rch '='],
    rcat [RE.bol, RE.star rws, rstr "var", RE.plus rws, RE.plus rwc,
      RE.star rws, rch '='],
    rcat [RE.bol, RE.star rws, rstr "import", RE.plus rws, RE.star rdot,
      RE.plus rws, rstr "from", RE.plus rws, rquote],
    rcat [RE.bol, RE.star rws, rstr "export", RE.plus rws]],
   ["function", "const", "let", "var", "import", "export", "if", "else",
    "for", "while"].map lit⟩

def typescriptConfig : LangConfig :=
  ⟨[".ts", ".tsx"].map lit,
   [rcat [RE.bol, RE.star rws, rstr "interface", RE.plus rws, RE.plus rwc,
      RE.star rws, rch (Char.ofNat 123)],
    rcat [RE.bol, RE.star rws, rstr "type", RE.plus rws, RE.plus rwc,
      RE.star rws, rch '='],
    rcat [RE.bol, RE.star rws, rstr "enum", RE.plus rws, RE.plus rwc,
      RE.star rws, rch (Char.ofNat 123)],
    rcat [rch ':', RE.star rws, RE.plus rwc, RE.star rws,
      RE.cls (fun c => c = '=' || c = ';')],
    rcat [RE.bol, RE.star rws, rstr "import", RE.plus rws, RE.star rdot,
      RE.plus rws, rstr "from", RE.plus rws, rquote]],
   ["interface", "type", "enum", "function", "const", "let", "import",
    "export"].map lit⟩

def javaConfig : LangConfig :=
  ⟨[".java"].map lit,
   [rcat [RE.bol, RE.star rws, rstr "public", RE.plus rws, rstr "class",
      RE.plus rws, RE.plus rwc],
    rcat [RE.bol, RE.star rws, rstr "private", RE.plus rws, RE.plus rwc,
      RE.plus rws, RE.plus rwc],
    rcat [RE.bol, RE.star rws, rstr "public", RE.plus rws, rstr "static",
      RE.plus rws, rstr "void", RE.plus rws, rstr "main"],
    rcat [RE.bol, RE.star rws, rstr "package", RE.plus rws, RE.plus rwc],
    rcat [RE.bol, RE.star rws, rstr "import", RE.plus rws, RE.plus rwc]],
   ["public", "private", "protected", "class", "interface", "package",
    "import"].map lit⟩

def goConfig : LangConfig :=
  ⟨[".go"].map lit,
   [rcat [RE.bol, RE.star rws, rstr "package", RE.plus rws, RE.plus rwc],
    rcat [RE.bol, RE.star rws, rstr "import", RE.plus rws,
      RE.cls (fun c => c = Char.ofNat 34 || c = '(')],
    rcat [RE.bol, RE.star rws, rstr "func", RE.plus rws, RE.plus rwc,
      RE.star rws, rch '('],
    rcat [RE.bol, RE.star rws, rstr "type", RE.plus rws, RE.plus rwc,
      RE.plus rws, rstr "struct"],
    rcat [RE.bol, RE.star rws, rstr "var", RE.plus rws, RE.plus rwc,
      RE.plus rws, RE.plus rwc]],
   ["package", "import", "func", "type", "struct", "var", "const"].map lit⟩

def rustConfig : LangConfig :=
  ⟨[".rs"].map lit,
   [rcat [RE.bol, RE.star rws, rstr "fn", RE.plus rws, RE.plus rwc,
      RE.star rws, rch '('],
    rcat [RE.bol, RE.star rws, rstr "struct", RE.plus rws, RE.plus rwc,
      RE.star rws, rch (Char.ofNat 123)],
    rcat [RE.bol, RE.star rws, rstr "impl", RE.plus rws, RE.plus rwc,
      RE.star rws, rch (Char.ofNat 123)],
    rcat [RE.bol, RE.star rws, rstr "use", RE.plus rws, RE.plus rwc],
    rcat [RE.bol, RE.star rws, rstr "mod", RE.plus rws, RE.plus rwc]],
   ["fn", "struct", "impl", "use", "mod", "let", "mut"].map lit⟩

/-- `CodeAnalyzer.LANGUAGE_PATTERNS`, in dict iteration order. -/
def LANGUAGE_PATTERNS : List (Str × LangConfig) :=
  [(lit "python", pythonConfig), (lit "javascript", javascriptConfig),
   (lit "typescript", typescriptConfig), (lit "java", javaConfig),
   (lit "go", goConfig), (lit "rust", rustConfig)]

/-- `^\s*import\s+.*\s+from\s+["\']([^"\']+)["\']`. -/
def jsImportFrom : RE :=
  rcat [RE.bol, RE.star rws, rstr "import", RE.plus rws, RE.star rdot,
    RE.plus rws, rstr "from", RE.plus rws, rquote,
    RE.grp (RE.plus rnotquote), rquote]

/-- `CodeAnalyzer.DEPENDENCY_PATTERNS`, in dict iteration order. -/
def DEPENDENCY_PATTERNS : List (Str × List RE) :=
  [(lit "python",
    [rcat [RE.bol, RE.star rws, rstr "import", RE.plus rws, dottedName],
     rcat [RE.bol, RE.star rws, rstr "from", RE.plus rws, dottedName,
       RE.plus rws, rstr "import"]]),
   (lit "javascript",
    [jsImportFrom,
     rcat [RE.bol, RE.star rws, rstr "const", RE.plus rws, RE.star rdot,
       RE.star rws, rch '=', RE.star rws, rstr "require", RE.star rws,
       rch '(', RE.star rws, rquote, RE.grp (RE.plus rnotquote), rquote,
       RE.star rws, rch ')']]),
   (lit "typescript", [jsImportFrom]),
   (lit "java",
    [rcat [RE.bol, RE.star rws, rstr "import", RE.plus rws,
      RE.grp (RE.plus (RE.cls (fun c => isWordChar c || c = '.')))]]),
   (lit "go",
    [rcat [RE.bol, RE.star rws, rstr "import", RE.plus rws, rquote,
       RE.grp (RE.plus rnotquote), rquote],
     rcat [RE.bol, RE.star rws, rstr "import", RE.plus rws, RE.plus rwc,
       RE.plus rws, rquote, RE.grp (RE.plus rnotquote), rquote]]),
   (lit "rust",
    [rcat [RE.bol, RE.star rws, rstr "use", RE.plus rws,
      RE.grp (RE.plus (RE.cls (fun c => isWordChar c || c = ':')))]])]

/-! ### The classifier itself (`CodeAnalyzer.detect_language` and
`CodeAnalyzer.extract_dependencies`) -/

/-- One language's score: 2 per structural pattern match plus 1 per
whole-word keyword occurrence. -/
def langScore (cfg : LangConfig) (s : Str) : Nat :=
  (cfg.patterns.map (fun r => findallCount r s * 2)).sum
    + (cfg.keywords.map (fun kw => findallCount (kwRE kw) s)).sum

/-- Python's `max(scores, key=scores.get)` loop: keep the current best,
replacing it only on a strictly larger value (first maximum wins). -/
def pyMaxPair : List (Str × Nat) → (Str × Nat) → (Str × Nat)
  | [], best => best
  | e :: rest, best => pyMaxPair rest (if best.2 < e.2 then e else best)

def pyMax : List (Str × Nat) → Option Str
  | [] => none
  | e :: rest => some (pyMaxPair rest e).1

/-- `CodeAnalyzer.detect_language` with supplied content: extension lookup
first (authoritative), else the pattern/keyword scoring with the argmax over
the positively scored languages. -/
def detectLanguage (p : FPath) (content : Str) : Option Str :=
  match LANGUAGE_PATTERNS.find? (fun e => pyLower p.ext ∈ e.2.extensions) with
  | some e => some e.1
  | none =>
    pyMax ((LANGUAGE_PATTERNS.map
        (fun e => (e.1, langScore e.2 content))).filter (fun e => 0 < e.2))

/-- `CodeAnalyzer.detect_language` including the content-reading branch:
when no content is supplied the file is read (up to 8 KiB), and a failing
read raises (`Except.error`). -/
def detectLanguageFS (fs : FS) (p : FPath) (content : Option Str) :
    Except Unit (Option Str) :=
  match LANGUAGE_PATTERNS.find? (fun e => pyLower p.ext ∈ e.2.extensions) with
  | some e => .ok (some e.1)
  | none =>
    match content with
    | some c =>
      .ok (pyMax ((LANGUAGE_PATTERNS.map
          (fun e => (e.1, langScore e.2 c))).filter (fun e => 0 < e.2)))
    | none =>
      match fs.read p with
      | none => .error ()
      | some c =>
        .ok (pyMax ((LANGUAGE_PATTERNS.map
            (fun e => (e.1, langScore e.2 (c.take 8192)))).filter
              (fun e => 0 < e.2)))

/-- Python `str.strip()`. -/
def pyStrip (s : Str) : Str :=
  ((s.dropWhile pyIsSpace).reverse.dropWhile pyIsSpace).reverse

/-- The body of the match loop in `extract_dependencies`: strip the capture
and add it unless it is empty or a relative import. -/
def addDep (ds : List Str) (m : Str) : List Str :=
  if pyStrip m ≠ [] ∧ ¬ (pyStrip m).head? = some '.' then
    insertDep ds (pyStrip m)
  else ds

/-- `CodeAnalyzer.extract_dependencies` with supplied content: requires a
detected language, applies its import patterns to the full content, cleans
each capture, deduplicates and sorts. -/
def extractDependencies (p : FPath) (content : Str) : List Str :=
  match detectLanguage p content with
  | none => []
  | some lang =>
    ((((DEPENDENCY_PATTERNS.find? (fun e => e.1 = lang)).map
          Prod.snd).getD []).foldl
        (fun ds re => (findallGroup1 re content).foldl addDep ds)
        []).insertionSort strLeProp

/-! ### Elementary facts about the string helpers -/

theorem pySplit_ne_nil (sep : Char) (s : Str) : pySplit sep s ≠ [] := by
  cases s with
  | nil => simp [pySplit]
  | cons c cs =>
    simp only [pySplit]
    split
    · simp
    · split <;> simp

theorem pySplit_append_cons (sep : Char) (a b : Str) :
    pySplit sep (a ++ sep :: b) = pySplit sep a ++ pySplit sep b := by
  induction a with
  | nil => simp [pySplit]
  | cons c cs ih =>
    by_cases hc : c = sep
    · subst hc
      simp [pySplit, ih]
    · rcases h : pySplit sep cs with _ | ⟨p, ps⟩
      · exact absurd h (pySplit_ne_nil sep cs)
      · simp only [List.cons_append, pySplit, if_neg hc]
        rw [show cs.append (sep :: b) = cs ++ sep :: b from rfl, ih, h]
        simp

theorem pySplit_of_not_mem {sep : Char} {s : Str} (h : sep ∉ s) :
    pySplit sep s = [s] := by
  induction s with
  | nil => simp [pySplit]
  | cons c cs ih =>
    simp only [List.mem_cons, not_or] at h
    have h1 : ¬ c = sep := fun hh => h.1 hh.symm
    simp only [pySplit, if_neg h1, ih h.2]

theorem pyJoin_pySplit (sep : Char) (s : Str) :
    pyJoin sep (pySplit sep s) = s := by
  induction s with
  | nil => simp [pySplit, pyJoin]
  | cons c cs ih =>
    simp only [pySplit]
    by_cases hc : c = sep
    · subst hc
      simp only [if_pos rfl]
      rcases h : pySplit c cs with _ | ⟨p, ps⟩
      · exact absurd h (pySplit_ne_nil c cs)
      · rw [h] at ih
        simp [pyJoin, ih]
    · simp only [if_neg hc]
      rcases h : pySplit sep cs with _ | ⟨p, ps⟩
      · exact absurd h (pySplit_ne_nil sep cs)
      · rw [h] at ih
        cases ps with
        | nil => simp_all [pyJoin]
        | cons q qs => simp_all [pyJoin]

theorem rfindIdx_eq_none_of_not_mem {c : Char} {s : Str} (h : c ∉ s) :
    rfindIdx c s = none := by
  induction s with
  | nil => rfl
  | cons x xs ih =>
    simp only [List.mem_cons, not_or] at h
    have h1 : ¬ x = c := fun hh => h.1 hh.symm
    simp [rfindIdx, ih h.2, h1]

theorem not_mem_of_rfindIdx_eq_none {c : Char} {s : Str}
    (h : rfindIdx c s = none) : c ∉ s := by
  induction s with
  | nil => simp
  | cons x xs ih =>
    simp only [rfindIdx] at h
    rcases hx : rfindIdx c xs with _ | j
    · rw [hx] at h
      by_cases hxc : x = c
      · rw [if_pos hxc] at h
        exact absurd h (by simp)
      · simp only [List.mem_cons, not_or]
        exact ⟨fun hh => hxc hh.symm, ih hx⟩
    · rw [hx] at h
      exact absurd h (by simp)

theorem rfindIdx_append {c : Char} {r : Str} (l : Str) (h : c ∉ r) :
    rfindIdx c (l ++ c :: r) = some l.length := by
  induction l with
  | nil =>
    have hn : rfindIdx c r = none := rfindIdx_eq_none_of_not_mem h
    simp [rfindIdx, hn]
  | cons x xs ih => simp [rfindIdx, ih]

theorem rfindIdx_drop {c : Char} {s : Str} {i : Nat}
    (h : rfindIdx c s = some i) : ∃ rest, s.drop i = c :: rest ∧ c ∉ rest := by
  induction s generalizing i with
  | nil => simp [rfindIdx] at h
  | cons x xs ih =>
    simp only [rfindIdx] at h
    rcases hx : rfindIdx c xs with _ | j
    · rw [hx] at h
      by_cases hxc : x = c
      · rw [if_pos hxc] at h
        obtain rfl : i = 0 := by simpa using h.symm
        exact ⟨xs, by simp [hxc], not_mem_of_rfindIdx_eq_none hx⟩
      · rw [if_neg hxc] at h
        exact absurd h (by simp)
    · rw [hx] at h
      obtain rfl : i = j + 1 := by simpa using h.symm
      simpa using ih hx

theorem rfindIdx_lt_length {c : Char} {s : Str} {i : Nat}
    (h : rfindIdx c s = some i) : i < s.length := by
  induction s generalizing i with
  | nil => simp [rfindIdx] at h
  | cons x xs ih =>
    simp only [rfindIdx] at h
    rcases hx : rfindIdx c xs with _ | j
    · rw [hx] at h
      by_cases hxc : x = c
      · rw [if_pos hxc] at h
        obtain rfl : i = 0 := by simpa using h.symm
        simp
      · rw [if_neg hxc] at h
        exact absurd h (by simp)
    · rw [hx] at h
      obtain rfl : i = j + 1 := by simpa using h.symm
      simpa using ih hx

theorem pyStem_append_pySuffix (name : Str) :
    pyStem name ++ pySuffix name = name := by
  unfold pyStem pySuffix
  rcases h : rfindIdx '.' name with _ | i
  · simp
  · have hlt := rfindIdx_lt_length h
    by_cases hc : 0 < i ∧ i < name.length - 1
    · simp only [if_pos hc, List.length_drop]
      have : name.length - (name.length - i) = i := by omega
      rw [this, List.take_append_drop]
    · simp [if_neg hc]

theorem dropLast_two (l : List Str) (a b : Str) :
    ((l ++ [a, b]).dropLast).dropLast = l := by
  have : l ++ [a, b] = (l ++ [a]) ++ [b] := by simp
  rw [this, List.dropLast_concat, List.dropLast_concat]

theorem isDigit_ne_underscore {c : Char} (h : c.isDigit = true) : c ≠ '_' := by
  intro hc; subst hc; simp [Char.isDigit] at h

theorem isDigit_ne_dot {c : Char} (h : c.isDigit = true) : c ≠ '.' := by
  intro hc; subst hc; simp [Char.isDigit] at h

/-- A `pathlib` suffix is either empty or a dot followed by a nonempty,
dot-free remainder. -/
theorem pySuffix_structure (name : Str) :
    pySuffix name = [] ∨
      ∃ rest, pySuffix name = '.' :: rest ∧ '.' ∉ rest ∧ rest ≠ [] := by
  unfold pySuffix
  rcases h : rfindIdx '.' name with _ | i
  · exact Or.inl rfl
  · by_cases hc : 0 < i ∧ i < name.length - 1
    · right
      obtain ⟨rest, hdrop, hmem⟩ := rfindIdx_drop h
      refine ⟨rest, by simp [if_pos hc, hdrop], hmem, ?_⟩
      have hlen : (name.drop i).length = name.length - i := List.length_drop i name
      intro hr
      subst hr
      rw [hdrop] at hlen
      simp at hlen
      omega
    · exact Or.inl (by simp [if_neg hc])

/-- Reduction of `pySuffix` once the last-dot index is known. -/
theorem pySuffix_some {s : Str} {i : Nat} (h : rfindIdx '.' s = some i) :
    pySuffix s = if 0 < i ∧ i < s.length - 1 then s.drop i else [] := by
  unfold pySuffix
  rw [h]

/-- Core inference fact: applied to a backup filename built from stem `S`,
extension `X`, and a digit timestamp `D`/`T`, the inference of
`BackupManager._infer_original_path` returns the bare original filename
`S ++ X`, provided `X` contains no underscore and, when `X` is empty, `S`
contains no dot. -/
theorem infer_core (S X D T : Str)
    (hDd : ∀ c ∈ D, c.isDigit = true) (hTd : ∀ c ∈ T, c.isDigit = true)
    (hXund : '_' ∉ X)
    (hX : X = [] ∨ ∃ rest, X = '.' :: rest ∧ '.' ∉ rest ∧ rest ≠ [])
    (hSdot : X = [] → '.' ∉ S) :
    inferOriginalPath [S ++ '_' :: (D ++ '_' :: (T ++ (X ++ lit ".bak")))]
      = [S ++ X] := by
  have hDu : '_' ∉ D := fun hm => isDigit_ne_underscore (hDd _ hm) rfl
  have hTu : '_' ∉ T := fun hm => isDigit_ne_underscore (hTd _ hm) rfl
  have hDdot : '.' ∉ D := fun hm => isDigit_ne_dot (hDd _ hm) rfl
  have hTdot : '.' ∉ T := fun hm => isDigit_ne_dot (hTd _ hm) rfl
  set P : Str := S ++ '_' :: (D ++ '_' :: (T ++ X)) with hPdef
  set bname : Str := S ++ '_' :: (D ++ '_' :: (T ++ (X ++ lit ".bak"))) with hbdef
  have hbeq : bname = P ++ '.' :: lit "bak" := by
    simp [hbdef, hPdef, lit]
  have hfind : rfindIdx '.' bname = some P.length := by
    rw [hbeq]
    exact rfindIdx_append P (by decide)
  have hblen : bname.length = P.length + 4 := by
    rw [hbeq]; simp [lit]
  have hPlen : P.length = S.length + D.length + T.length + X.length + 2 := by
    simp [hPdef]; omega
  have hsufb : pySuffix bname = '.' :: lit "bak" := by
    rw [pySuffix_some hfind, if_pos (by constructor <;> omega), hbeq,
      List.drop_left]
  have hstemb : pyStem bname = P := by
    unfold pyStem
    rw [hsufb]
    have hl : bname.length - ('.' :: lit "bak").length = P.length := by
      simp only [lit, List.length_cons, List.length_nil] at hblen ⊢
      omega
    rw [hl, hbeq, List.take_left]
  have hsplit : pySplit '_' P = pySplit '_' S ++ [D, T ++ X] := by
    rw [hPdef, pySplit_append_cons, pySplit_append_cons,
      pySplit_of_not_mem hDu,
      pySplit_of_not_mem (show ('_' : Char) ∉ T ++ X by
        intro hm
        rcases List.mem_append.mp hm with hm | hm
        · exact hTu hm
        · exact hXund hm)]
    rfl
  have hlen3 : 3 ≤ (pySplit '_' P).length := by
    rw [hsplit]
    have h1 : 0 < (pySplit '_' S).length :=
      List.length_pos.mpr (pySplit_ne_nil '_' S)
    simp only [List.length_append, List.length_cons, List.length_nil]
    omega
  have hbase : pyJoin '_' (((pySplit '_' P).dropLast).dropLast) = S := by
    rw [hsplit, dropLast_two, pyJoin_pySplit]
  have hfn : pyStem (FPath.fname [bname]) = P := by
    have hb1 : FPath.fname [bname] = bname := rfl
    rw [hb1, hstemb]
  simp only [inferOriginalPath]
  rw [hfn]
  unfold inferOriginalName
  rw [if_pos hlen3, hbase]
  rcases hX with hXe | ⟨rest, hXr, hrdot, hrne⟩
  · have hPdot : ¬ '.' ∈ P := by
      rw [hPdef, hXe]
      intro hm
      simp only [List.append_nil, List.mem_append, List.mem_cons] at hm
      rcases hm with hm | hm | hm
      · exact hSdot hXe hm
      · exact absurd hm.symm (by decide)
      · rcases hm with hm | hm | hm
        · exact hDdot hm
        · exact absurd hm (by decide)
        · exact hTdot hm
    rw [if_neg (by simpa using hPdot)]
    simp [hXe]
  · set Q : Str := S ++ '_' :: (D ++ '_' :: T) with hQdef
    have hPQ : P = Q ++ '.' :: rest := by
      simp [hPdef, hQdef, hXr]
    have hfindP : rfindIdx '.' P = some Q.length := by
      rw [hPQ]
      exact rfindIdx_append Q hrdot
    have hQlen : Q.length = S.length + D.length + T.length + 2 := by
      simp [hQdef]; omega
    have hPlen2 : P.length = Q.length + rest.length + 1 := by
      rw [hPQ]; simp; omega
    have hrest1 : 1 ≤ rest.length := by
      cases rest with
      | nil => exact absurd rfl hrne
      | cons a l => simp
    have hsufP : pySuffix P = X := by
      rw [pySuffix_some hfindP, if_pos (by constructor <;> omega), hPQ,
        List.drop_left, hXr]
    have hPdot : '.' ∈ P := by
      rw [hPQ]
      exact List.mem_append.mpr (Or.inr (by simp))
    rw [if_pos (by simpa using hPdot), hsufP]

/-- The backup filename written by `create_backup` for a bare filename
infers back to that filename, whenever the extension contains no underscore
and an extension-less name contains no dot. -/
theorem inferOriginalPath_backupName (name : Str) (ts : Timestamp)
    (hts : ts.valid = true)
    (hsuf : '_' ∉ pySuffix name)
    (hstem : pySuffix name = [] → '.' ∉ pyStem name) :
    inferOriginalPath [backupName [name] ts] = [name] := by
  simp only [Timestamp.valid, Bool.and_eq_true, decide_eq_true_eq,
    List.all_eq_true] at hts
  obtain ⟨⟨⟨hd0, ht0⟩, hdd⟩, htd⟩ := hts
  have hb : backupName [name] ts
      = pyStem name ++ '_' :: (ts.date ++ '_' :: (ts.time ++ (pySuffix name ++ lit ".bak"))) := by
    simp [backupName, Timestamp.fmt, FPath.stem, FPath.ext, FPath.fname]
  rw [hb,
    infer_core (pyStem name) (pySuffix name) ts.date ts.time hdd htd hsuf
      (pySuffix_structure name) hstem,
    pyStem_append_pySuffix]

/-! ### Claim C1: retention cap after repeated `create_backup` -/

/-- The directory-qualified original path `sub/file.py`. -/
def c1fp : FPath := [lit "sub", lit "file.py"]

/-- A filesystem holding only `sub/file.py` with content `"x"`. -/
def c1fs : FS := fun q => if q = c1fp then some (lit "x") else none

def c1ts1 : Timestamp := ⟨lit "20240101", lit "010101"⟩

def c1ts2 : Timestamp := ⟨lit "20240101", lit "010102"⟩

/-- Two consecutive `create_backup("sub/file.py")` calls with retention cap
`max_backups = 1`, starting from an empty backup directory. -/
def c1run : BackupDir :=
  match createBackup 1 c1fs ⟨[], 0⟩ c1fp c1ts1 with
  | .error _ => ⟨[], 0⟩
  | .ok (d1, _) =>
    match createBackup 1 c1fs d1 c1fp c1ts2 with
    | .error _ => d1
    | .ok (d2, _) => d2

/-- **C1** (code bug, evaluated at the failing input): after `N = 2`
consecutive `create_backup` calls for the original path `sub/file.py` with
cap `K = 1`, *two* backups of that path remain — not `K = 1` — because
`_cleanup_old_backups` filters through `list_backups`, whose comparison
`_infer_original_path(backup) == Path(filepath)` matches a bare inferred
filename against the directory-qualified original path and therefore never
succeeds: the retention pass sees an empty list and deletes nothing.  The
spec's cap invariant is violated for every path that carries a directory
component (which is what `core.py` always passes). -/
theorem C1_cap_violated_at_qualified_path :
    c1run.entries.map BackupEntry.name
        = [backupName c1fp c1ts1, backupName c1fp c1ts2] ∧
      c1run.entries.length = 2 ∧
      listBackups c1run (some c1fp) = [] := by
  refine ⟨?_, ?_, ?_⟩ <;> rfl

/-! ### Claim C4: create/restore round-trip through the inferred target -/

/-- The directory-qualified original path `sub/a.py`. -/
def c4fp : FPath := [lit "sub", lit "a.py"]

def c4fs0 : FS := fun q => if q = c4fp then some (lit "x") else none

def c4ts : Timestamp := ⟨lit "20240101", lit "010101"⟩

/-- Back up `sub/a.py` (content `"x"`), overwrite it with `"y"`, then restore
from the backup with the target omitted; record what ends up at the original
path and at the bare filename `a.py`. -/
def c4result : Option (Option Str × Option Str) :=
  match createBackup 10 c4fs0 ⟨[], 0⟩ c4fp c4ts with
  | .error _ => none
  | .ok (d1, bn) =>
    match restoreBackup d1 (c4fs0.write c4fp (lit "y")) bn none with
    | .error _ => none
    | .ok fs2 => some (fs2.read c4fp, fs2.read [lit "a.py"])

/-- **C4 counterexample**: for the existing file `sub/a.py`, `create_backup`
followed by `restore_backup` with the target omitted does *not* restore the
backup-time bytes `"x"` at the original path: the inferred target is the bare
filename `a.py`, so the original path still holds the later content `"y"`
while `"x"` lands at `a.py` relative to the working directory. -/
theorem C4_counterexample_qualified_path :
    c4result = some (some (lit "y"), some (lit "x")) ∧
      (∀ p₂, c4result ≠ some (some (lit "x"), p₂)) := by
  refine ⟨rfl, fun p₂ h => ?_⟩
  rw [show c4result = some (some (lit "y"), some (lit "x")) from rfl] at h
  simp [lit] at h

/-- **C4** (amended): the round-trip does hold whenever the backup filename
inference can invert `create_backup`'s naming: for a file whose path is a
bare filename, whose suffix contains no underscore, and — when the name has
no suffix — whose stem contains no dot, `create_backup` followed by
`restore_backup` on the returned backup with the target omitted rewrites the
backup-time content at the original path, from any later filesystem state
and any backup directory holding no backup matching that file. -/
theorem C4_roundtrip_inferred_target (name : Str) (ts : Timestamp) (K : Nat)
    (fs fs2 : FS) (d : BackupDir) (c : Str)
    (hts : ts.valid = true)
    (hund : '_' ∉ pySuffix name)
    (hdot : pySuffix name = [] → '.' ∉ pyStem name)
    (hread : fs.read [name] = some c)
    (hfresh : ∀ e ∈ d.entries, backupMatches (some [name]) e = false) :
    ∃ d2, createBackup K fs d [name] ts
        = .ok (d2, backupName [name] ts) ∧
      ∃ fs3, restoreBackup d2 fs2 (backupName [name] ts) none = .ok fs3 ∧
        fs3.read [name] = some c := by
  have hinf := inferOriginalPath_backupName name ts hts hund hdot
  set bn := backupName [name] ts with hbn
  set enew : BackupEntry := ⟨bn, c, d.clock⟩ with henew
  have hsufbak : (lit ".bak").isSuffixOf bn = true := by
    have hshape : bn = (FPath.stem [name] ++ '_' :: (Timestamp.fmt ts ++ FPath.ext [name])) ++ lit ".bak" := by
      simp [hbn, backupName]
    rw [hshape, List.isSuffixOf_iff_suffix]
    exact List.suffix_append _ _
  have hmatch : backupMatches (some [name]) enew = true := by
    simp only [backupMatches, henew, hsufbak, Bool.true_and]
    simp [hinf]
  have hold : ∀ e ∈ d.entries, e.name ≠ bn := by
    intro e he hn
    have hm : backupMatches (some [name]) e = true := by
      simp only [backupMatches, hn, hsufbak, Bool.true_and]
      simp [hinf]
    rw [hfresh e he] at hm
    exact absurd hm (by simp)
  have hany : d.entries.any (fun e => e.name = bn) = false := by
    rw [List.any_eq_false]
    intro e he
    simp [hold e he]
  have hput : d.put bn c = ⟨d.entries ++ [enew], d.clock + 1⟩ := by
    unfold BackupDir.put
    rw [if_neg (by simp [hany])]
  have hfilter : ((d.put bn c).entries).filter (backupMatches (some [name]))
      = [enew] := by
    rw [hput]
    simp only [List.filter_append]
    have h1 : d.entries.filter (backupMatches (some [name])) = [] := by
      apply List.filter_eq_nil_iff.mpr
      intro e he
      simp [hfresh e he]
    rw [h1]
    simp [hmatch]
  have hlist : listBackups (d.put bn c) (some [name]) = [enew] := by
    unfold listBackups
    rw [hfilter]
    rfl
  have hclean : cleanupOldBackups K (d.put bn c) [name] = d.put bn c := by
    unfold cleanupOldBackups
    by_cases hk : K = 0
    · rw [if_pos hk]
    · rw [if_neg hk, hlist]
      rw [if_neg (by simp; omega)]
  have hcreate : createBackup K fs d [name] ts
      = .ok (cleanupOldBackups K (d.put bn c) [name], bn) := by
    unfold createBackup
    rw [hread]
  refine ⟨d.put bn c, by rw [hcreate, hclean], ?_⟩
  have hfindnone : d.entries.find? (fun e => e.name = bn) = none :=
    List.find?_eq_none.mpr (fun e he => by simp [hold e he])
  have hfind : ((d.put bn c).entries).find? (fun e => e.name = bn)
      = some enew := by
    rw [hput]
    rw [List.find?_append, hfindnone]
    simp [henew]
  refine ⟨fs2.write [name] c, ?_, FS.read_write fs2 [name] c⟩
  unfold restoreBackup
  rw [hfind, hinf]

/-- **C4 witness**: the amended round-trip at the concrete bare filename
`a.py` with content `"x"`, cap `10`, an empty backup directory, and a later
filesystem state in which `a.py` was overwritten with `"y"`. -/
theorem C4_roundtrip_witness :
    ((⟨lit "20240101", lit "010101"⟩ : Timestamp).valid = true ∧
      '_' ∉ pySuffix (lit "a.py") ∧
      (pySuffix (lit "a.py") = [] → '.' ∉ pyStem (lit "a.py")) ∧
      FS.read (fun q => if q = [lit "a.py"] then some (lit "x") else none)
        [lit "a.py"] = some (lit "x") ∧
      (∀ e ∈ (⟨[], 0⟩ : BackupDir).entries,
        backupMatches (some [lit "a.py"]) e = false)) ∧
    (∃ d2, createBackup 10
          (fun q => if q = [lit "a.py"] then some (lit "x") else none)
          ⟨[], 0⟩ [lit "a.py"] ⟨lit "20240101", lit "010101"⟩
        = .ok (d2, backupName [lit "a.py"] ⟨lit "20240101", lit "010101"⟩) ∧
      ∃ fs3, restoreBackup d2
            (FS.write (fun q => if q = [lit "a.py"] then some (lit "x") else none)
              [lit "a.py"] (lit "y"))
            (backupName [lit "a.py"] ⟨lit "20240101", lit "010101"⟩) none
          = .ok fs3 ∧
        fs3.read [lit "a.py"] = some (lit "x")) := by
  refine ⟨⟨by decide, by decide, by decide, by decide, by decide⟩, ?_⟩
  exact C4_roundtrip_inferred_target (lit "a.py")
    ⟨lit "20240101", lit "010101"⟩ 10
    (fun q => if q = [lit "a.py"] then some (lit "x") else none)
    (FS.write (fun q => if q = [lit "a.py"] then some (lit "x") else none)
      [lit "a.py"] (lit "y"))
    ⟨[], 0⟩ (lit "x") (by decide) (by decide) (by decide) (by decide)
    (by decide)

/-! ### Claims C2 and C3: the atomic writer -/

/-- A backup path returned by the existence probe was free. -/
theorem findBackupPath_fresh {fs : FS} {orig : FPath} {cfg : WriterCfg} :
    ∀ {fuel k : Nat} {bp : FPath},
      findBackupPath fs orig cfg fuel k = some bp → fs.read bp = none := by
  intro fuel
  induction fuel with
  | zero => intro k bp h; simp [findBackupPath] at h
  | succ n ih =>
    intro k bp h
    simp only [findBackupPath] at h
    by_cases hc : (fs.read (backupCandidate orig cfg k)).isSome
    · rw [if_pos hc] at h
      exact ih h
    · rw [if_neg hc] at h
      obtain rfl : backupCandidate orig cfg k = bp := by simpa using h
      simpa using hc

/-- The `mkstemp` filename `.{name}.{nonce}.tmp` never equals the target. -/
theorem tempPath_ne (p : FPath) (nonce : Str) : tempPath p nonce ≠ p := by
  intro h
  have h1 : (tempPath p nonce).fname = p.fname := by rw [h]
  have h2 : (tempPath p nonce).fname
      = '.' :: (p.fname ++ '.' :: (nonce ++ lit ".tmp")) := by
    simp [tempPath, FPath.fname, List.getLastD_concat]
  rw [h2] at h1
  have h3 := congrArg List.length h1
  simp [lit] at h3
  omega

/-- Successful `_write_atomic`: the target holds the full new content, and
every intermediate state shows either the old value or the full new value at
the target. -/
theorem writeAtomic_ok_read {fs : FS} {p : FPath} {content tmpPart : Str}
    {tmp : FPath} {fail : WFail} (htmp : tmp ≠ p)
    (hok : (writeAtomic fs p content tmpPart tmp fail).ok = true) :
    (writeAtomic fs p content tmpPart tmp fail).final.read p = some content ∧
    ∀ s ∈ (writeAtomic fs p content tmpPart tmp fail).trace,
      s.read p = fs.read p ∨ s.read p = some content := by
  have hpt : p ≠ tmp := fun hh => htmp hh.symm
  unfold writeAtomic at hok ⊢
  by_cases h1 : (fs.read tmp).isSome
  · rw [if_pos h1] at hok
    exact absurd hok (by simp)
  · rw [if_neg h1] at hok ⊢
    by_cases h2 : fail = WFail.atTempWrite
    · rw [if_pos h2] at hok
      exact absurd hok (by simp)
    · rw [if_neg h2] at hok ⊢
      by_cases h3 : fail = WFail.atRename
      · rw [if_pos h3] at hok
        exact absurd hok (by simp)
      · rw [if_neg h3]
        refine ⟨FS.read_write _ p content, ?_⟩
        intro s hs
        simp only [List.mem_cons, List.mem_singleton] at hs
        rcases hs with rfl | rfl | rfl | hs
        · exact Or.inl (FS.read_write_ne fs [] hpt)
        · exact Or.inl (by
            rw [FS.read_write_ne _ content hpt, FS.read_write_ne _ [] hpt])
        · exact Or.inr (FS.read_write _ p content)
        · exact absurd hs (List.not_mem_nil s)

/-- A failing (or temp-collision) `_write_atomic` reports failure. -/
theorem writeAtomic_fail_ok {fs : FS} {p : FPath} {content tmpPart : Str}
    {tmp : FPath} {fail : WFail} (hf : fail ≠ WFail.noFail) :
    (writeAtomic fs p content tmpPart tmp fail).ok = false := by
  unfold writeAtomic
  by_cases h1 : (fs.read tmp).isSome
  · rw [if_pos h1]
  · rw [if_neg h1]
    by_cases h2 : fail = WFail.atTempWrite
    · rw [if_pos h2]
    · rw [if_neg h2]
      by_cases h3 : fail = WFail.atRename
      · rw [if_pos h3]
      · cases fail <;> simp_all

/-- A failing `_write_atomic` leaves every path other than the temp file
unchanged (it never touches the target). -/
theorem writeAtomic_fail_read {fs : FS} {p : FPath} {content tmpPart : Str}
    {tmp : FPath} {fail : WFail} {q : FPath}
    (hf : fail ≠ WFail.noFail) (hq : q ≠ tmp) :
    (writeAtomic fs p content tmpPart tmp fail).final.read q = fs.read q := by
  unfold writeAtomic
  by_cases h1 : (fs.read tmp).isSome
  · rw [if_pos h1]
  · rw [if_neg h1]
    by_cases h2 : fail = WFail.atTempWrite
    · rw [if_pos h2]
      rw [FS.read_erase_ne _ hq, FS.read_write_ne _ tmpPart hq,
        FS.read_write_ne _ [] hq]
    · rw [if_neg h2]
      by_cases h3 : fail = WFail.atRename
      · rw [if_pos h3]
        rw [FS.read_erase_ne _ hq, FS.read_write_ne _ content hq,
          FS.read_write_ne _ [] hq]
      · cases fail <;> simp_all

/-- **C2**: whenever `write_file` returns successfully, the target path holds
exactly the written content, and every filesystem state passed through by the
call shows the target either with its prior content or with the full new
content — the rename is the sole visible mutation of the target, so no
reader can observe a truncated or partially written file. -/
theorem C2_write_success_reads_back (cfg : WriterCfg) (fs : FS) (p : FPath)
    (content nonce tmpPart : Str) (fail : WFail) (fuel : Nat)
    (hok : (writeFile cfg fs p content nonce tmpPart fail fuel).ok = true) :
    (writeFile cfg fs p content nonce tmpPart fail fuel).final.read p
        = some content ∧
    ∀ s ∈ (writeFile cfg fs p content nonce tmpPart fail fuel).trace,
      s.read p = fs.read p ∨ s.read p = some content := by
  have htmp := tempPath_ne p nonce
  rcases hrp : fs.read p with _ | old <;>
    rcases hcb : cfg.create_backups with _ | _
  case none.false =>
    simp only [writeFile, hrp, hcb] at hok ⊢
    have h := writeAtomic_ok_read htmp hok
    rw [hrp] at h
    exact h
  case none.true =>
    simp only [writeFile, hrp, hcb] at hok ⊢
    have h := writeAtomic_ok_read htmp hok
    rw [hrp] at h
    exact h
  case some.false =>
    simp only [writeFile, hrp, hcb] at hok ⊢
    have h := writeAtomic_ok_read htmp hok
    rw [hrp] at h
    exact h
  case some.true =>
    rcases hbp : findBackupPath fs p cfg fuel 0 with _ | bp
    · simp only [writeFile, hrp, hcb, hbp] at hok
      exact absurd hok (by simp)
    · simp only [writeFile, hrp, hcb, hbp] at hok ⊢
      have hbpp : bp ≠ p := by
        intro hh
        have hfr := findBackupPath_fresh hbp
        rw [hh, hrp] at hfr
        exact absurd hfr (by simp)
      have hfs1p : (fs.write bp old).read p = some old := by
        rw [FS.read_write_ne fs old (fun hh => hbpp hh.symm), hrp]
      set fs1 := fs.write bp old with hfs1
      set r := writeAtomic fs1 p content tmpPart (tempPath p nonce) fail
        with hr
      by_cases hro : r.ok = true
      · have hmain := writeAtomic_ok_read htmp hro
        rw [← hr, hfs1p] at hmain
        rw [if_pos hro] at hok ⊢
        by_cases hex : (r.final.read bp).isSome = true
        · rw [if_pos hex] at hok ⊢
          refine ⟨?_, ?_⟩
          · rw [FS.read_erase_ne _ (fun hh => hbpp hh.symm)]
            exact hmain.1
          · intro s hs
            simp only [List.cons_append, List.mem_cons, List.mem_append,
              List.mem_singleton, List.not_mem_nil, or_false] at hs
            rcases hs with rfl | hs | rfl
            · exact Or.inl hfs1p
            · exact hmain.2 s hs
            · refine Or.inr ?_
              rw [FS.read_erase_ne _ (fun hh => hbpp hh.symm)]
              exact hmain.1
        · rw [if_neg hex] at hok ⊢
          refine ⟨hmain.1, ?_⟩
          intro s hs
          simp only [List.mem_cons] at hs
          rcases hs with rfl | hs
          · exact Or.inl hfs1p
          · exact hmain.2 s hs
      · rw [if_neg hro] at hok
        rcases hx : r.final.read bp with _ | bc <;> rw [hx] at hok <;>
          simp at hok

/-- **C3**: with backups enabled and an existing target, an injected failure
of the temp-file write or of the rename makes `write_file` report the error
and leaves the target's bytes equal to the pre-write state (the sibling
backup is moved back over the target). -/
theorem C3_write_failure_restores (cfg : WriterCfg) (fs : FS) (p : FPath)
    (content nonce tmpPart old : Str) (fail : WFail) (fuel : Nat)
    (hold : fs.read p = some old)
    (hcb : cfg.create_backups = true)
    (hf : fail ≠ WFail.noFail) :
    (writeFile cfg fs p content nonce tmpPart fail fuel).ok = false ∧
    (writeFile cfg fs p content nonce tmpPart fail fuel).final.read p
      = some old := by
  rcases hbp : findBackupPath fs p cfg fuel 0 with _ | bp
  · simp only [writeFile, hold, hcb, hbp]
    exact ⟨trivial, trivial⟩
  · simp only [writeFile, hold, hcb, hbp]
    have hbpfresh := findBackupPath_fresh hbp
    have hbpp : bp ≠ p := by
      intro hh
      rw [hh, hold] at hbpfresh
      exact absurd hbpfresh (by simp)
    set fs1 := fs.write bp old with hfs1
    have hfs1bp : fs1.read bp = some old := FS.read_write fs bp old
    set r := writeAtomic fs1 p content tmpPart (tempPath p nonce) fail with hr
    have hro : r.ok = false := writeAtomic_fail_ok hf
    have hbptmp : r.final.read bp = some old := by
      by_cases hcol : (fs1.read (tempPath p nonce)).isSome
      · rw [hr]
        unfold writeAtomic
        rw [if_pos hcol]
        exact hfs1bp
      · have hne : bp ≠ tempPath p nonce := by
          intro hh
          rw [← hh] at hcol
          rw [hfs1bp] at hcol
          exact hcol (by simp)
        rw [hr, writeAtomic_fail_read hf hne]
        exact hfs1bp
    simp only [hro, Bool.false_eq_true, if_false, hbptmp]
    refine ⟨trivial, ?_⟩
    exact FS.read_write _ p old

/-- Default writer configuration: backups enabled, suffix `.bak`. -/
def wcfg : WriterCfg := ⟨true, lit ".bak"⟩

/-- A filesystem holding only `a.py` with content `"x"`. -/
def wfs : FS := fun q => if q = [lit "a.py"] then some (lit "x") else none

/-- The target path `a.py`. -/
def wp : FPath := [lit "a.py"]

/-- **C2 witness**: a concrete successful `write_file` of `"new"` over the
existing `a.py`, exercising the backup branch. -/
theorem C2_write_success_witness :
    (writeFile wcfg wfs wp (lit "new") (lit "t0") [] WFail.noFail 2).ok
        = true ∧
    ((writeFile wcfg wfs wp (lit "new") (lit "t0") [] WFail.noFail 2).final.read
          wp = some (lit "new") ∧
      ∀ s ∈ (writeFile wcfg wfs wp (lit "new") (lit "t0") [] WFail.noFail
          2).trace,
        s.read wp = wfs.read wp ∨ s.read wp = some (lit "new")) :=
  ⟨by decide,
    C2_write_success_reads_back wcfg wfs wp (lit "new") (lit "t0") []
      WFail.noFail 2 (by decide)⟩

/-- **C3 witness**: a concrete `write_file` over the existing `a.py` with an
injected temp-write failure: the call fails and `a.py` still holds `"x"`. -/
theorem C3_write_failure_witness :
    (wfs.read wp = some (lit "x") ∧ wcfg.create_backups = true ∧
      WFail.atTempWrite ≠ WFail.noFail) ∧
    ((writeFile wcfg wfs wp (lit "new") (lit "t0") (lit "ne")
          WFail.atTempWrite 2).ok = false ∧
      (writeFile wcfg wfs wp (lit "new") (lit "t0") (lit "ne")
          WFail.atTempWrite 2).final.read wp = some (lit "x")) :=
  ⟨⟨by decide, by decide, by decide⟩,
    C3_write_failure_restores wcfg wfs wp (lit "new") (lit "t0") (lit "ne")
      (lit "x") WFail.atTempWrite 2 (by decide) (by decide) (by decide)⟩

/-! ### Claims C7 and C10: the text probe -/

/-- **C7**: the text probe is a total boolean function (it is a Lean `def`
into `Bool`, for every path and every ambient environment, including every
failing read); an extension in the binary deny-list forces `false` before
the allow-list is consulted (the deny check is first, so this holds even for
an extension in both lists); and when the probe must sample the file, a
failed open/read yields `false` instead of an exception. -/
theorem C7_text_probe_total_and_conservative (env : ProbeEnv) (p : FPath) :
    (isTextFile env p = true ∨ isTextFile env p = false) ∧
    (pyLower p.ext ∈ BINARY_EXTENSIONS → isTextFile env p = false) ∧
    (pyLower p.ext ∉ BINARY_EXTENSIONS → pyLower p.ext ∉ TEXT_EXTENSIONS →
      env.mimeGuess p = none → env.sample p = none →
      isTextFile env p = false) := by
  refine ⟨?_, ?_, ?_⟩
  · cases h : isTextFile env p
    · exact Or.inr rfl
    · exact Or.inl rfl
  · intro hb
    simp [isTextFile, hb]
  · intro hb ht hm hs
    simp [isTextFile, hb, ht, hm, hs]

def probeEnv0 : ProbeEnv := ⟨fun _ => none, fun _ => none⟩

/-- **C7 witness**: `a.png` is denied by extension; `a.weird` reaches the
probe and a failing read yields `false`. -/
theorem C7_text_probe_witness :
    (pyLower (FPath.ext [lit "a.png"]) ∈ BINARY_EXTENSIONS ∧
      isTextFile probeEnv0 [lit "a.png"] = false) ∧
    (pyLower (FPath.ext [lit "a.weird"]) ∉ BINARY_EXTENSIONS ∧
      pyLower (FPath.ext [lit "a.weird"]) ∉ TEXT_EXTENSIONS ∧
      probeEnv0.mimeGuess [lit "a.weird"] = none ∧
      probeEnv0.sample [lit "a.weird"] = none ∧
      isTextFile probeEnv0 [lit "a.weird"] = false) :=
  ⟨⟨by decide,
      (C7_text_probe_total_and_conservative probeEnv0 [lit "a.png"]).2.1
        (by decide)⟩,
    ⟨by decide, by decide, rfl, rfl,
      (C7_text_probe_total_and_conservative probeEnv0 [lit "a.weird"]).2.2
        (by decide) (by decide) rfl rfl⟩⟩

/-- **C10** (implicit claim): for a file that reaches the content probe, the
probe answers `true` exactly when the raw read succeeds and the sample holds
no NUL byte — the `latin1` fallback decodes every byte string, so the
"all decodings exhausted" `false` branch is unreachable and UTF-8 validity
never changes the answer. -/
theorem C10_probe_nul_iff (env : ProbeEnv) (p : FPath)
    (hb : pyLower p.ext ∉ BINARY_EXTENSIONS)
    (ht : pyLower p.ext ∉ TEXT_EXTENSIONS)
    (hm : env.mimeGuess p = none) :
    isTextFile env p = true ↔
      ∃ s, env.sample p = some s ∧ (0 : Nat) ∉ s := by
  simp only [isTextFile, if_neg hb, if_neg ht, hm]
  rcases hs : env.sample p with _ | s
  · simp
  · have hrhs : (∃ s2, some s = some s2 ∧ (0 : Nat) ∉ s2) ↔ (0 : Nat) ∉ s := by
      constructor
      · rintro ⟨s2, hss, h⟩
        obtain rfl : s = s2 := by simpa using hss
        exact h
      · intro h
        exact ⟨s, rfl, h⟩
    rw [hrhs]
    by_cases h0 : (0 : Nat) ∈ s
    · simp [h0]
    · by_cases hu : utf8Valid s
      · simp [hu, h0]
      · simp [hu, h0, latin1Ok]

def probeEnv1 : ProbeEnv := ⟨fun _ => none, fun _ => some [104, 105]⟩

/-! ### Claim C8: the project scan isolates per-file failures -/

/-- The files that pass the ignore filter and the text filter. -/
def survivors (ig tx : FPath → Bool) (files : List FPath) : List FPath :=
  files.filter (fun f => !(ig f) && tx f)

/-- The successful analyses of the survivors, in visit order. -/
def okAnalyses (ig tx : FPath → Bool) (an : FPath → Except Str FileAnalysis)
    (files : List FPath) : List FileAnalysis :=
  (survivors ig tx files).filterMap (fun f => (an f).toOption)

/-- The per-file failures of the survivors, in visit order, as
(path, message) pairs. -/
def errEntries (ig tx : FPath → Bool) (an : FPath → Except Str FileAnalysis)
    (files : List FPath) : List (FPath × Str) :=
  (survivors ig tx files).filterMap (fun f =>
    match an f with
    | .error m => some (f, m)
    | .ok _ => none)

/-- The loop of `analyze_project`, characterized declaratively: the result
is the initial state extended by exactly the survivors' successful analyses
and failure records. -/
theorem analyzeLoop_spec (ig tx : FPath → Bool)
    (an : FPath → Except Str FileAnalysis) (files : List FPath)
    (st : ScanState) :
    analyzeLoop ig tx an files st =
      ⟨st.files ++ okAnalyses ig tx an files,
        (okAnalyses ig tx an files).foldl stepLang st.languages,
        (okAnalyses ig tx an files).foldl
          (fun ds fa => unionDeps ds fa.dependencies) st.dependencies,
        st.total_files + (okAnalyses ig tx an files).length,
        st.total_lines
          + ((okAnalyses ig tx an files).map FileAnalysis.line_count).sum,
        st.errors ++ errEntries ig tx an files⟩ := by
  induction files generalizing st with
  | nil => simp [analyzeLoop, okAnalyses, errEntries, survivors]
  | cons f rest ih =>
    by_cases hig : ig f = true
    · have hsurv : survivors ig tx (f :: rest) = survivors ig tx rest := by
        simp [survivors, hig]
      simp only [analyzeLoop, hig, if_true, okAnalyses, errEntries, hsurv]
      exact ih st
    · have hig2 : ig f = false := by simpa using hig
      by_cases htx : tx f = true
      · have hsurv : survivors ig tx (f :: rest) = f :: survivors ig tx rest := by
          simp [survivors, hig2, htx]
        rcases han : an f with m | fa
        · have hok : okAnalyses ig tx an (f :: rest)
              = okAnalyses ig tx an rest := by
            simp [okAnalyses, hsurv, List.filterMap_cons, han, Except.toOption]
          have herr : errEntries ig tx an (f :: rest)
              = (f, m) :: errEntries ig tx an rest := by
            simp [errEntries, hsurv, List.filterMap_cons, han]
          simp only [analyzeLoop, hig2, htx, if_true, Bool.false_eq_true,
            if_false, han, hok, herr]
          rw [ih]
          simp
        · have hok : okAnalyses ig tx an (f :: rest)
              = fa :: okAnalyses ig tx an rest := by
            simp [okAnalyses, hsurv, List.filterMap_cons, han, Except.toOption]
          have herr : errEntries ig tx an (f :: rest)
              = errEntries ig tx an rest := by
            simp [errEntries, hsurv, List.filterMap_cons, han]
          simp only [analyzeLoop, hig2, htx, if_true, Bool.false_eq_true,
            if_false, han, hok, herr]
          rw [ih]
          simp [scanStep]
          omega
      · have htx2 : tx f = false := by simpa using htx
        have hsurv : survivors ig tx (f :: rest) = survivors ig tx rest := by
          simp [survivors, hig2, htx2]
        simp only [analyzeLoop, hig2, htx2, Bool.false_eq_true, if_false,
          okAnalyses, errEntries, hsurv]
        exact ih st

/-- `analysis["languages"].get(lang, 0)` on the insertion-ordered dict. -/
def countLang (h : List (Str × Nat)) (lang : Str) : Nat :=
  ((h.find? (fun e => e.1 = lang)).map Prod.snd).getD 0

theorem find?_map_keys (h : List (Str × Nat)) (l l' : Str) :
    (h.map (fun e => if e.1 = l then (e.1, e.2 + 1) else e)).find?
        (fun e => e.1 = l')
      = (h.find? (fun e => e.1 = l')).map
          (fun e => if e.1 = l then (e.1, e.2 + 1) else e) := by
  induction h with
  | nil => simp
  | cons e hs ih =>
    have hproj : (if e.1 = l then (e.1, e.2 + 1) else e).1 = e.1 := by
      by_cases hel : e.1 = l
      · rw [if_pos hel]
      · rw [if_neg hel]
    by_cases he : e.1 = l'
    · rw [List.map_cons,
        List.find?_cons_of_pos _ (by simpa using hproj.trans he),
        List.find?_cons_of_pos _ (by simpa using he)]
      simp
    · rw [List.map_cons,
        List.find?_cons_of_neg _ (by simp [hproj, he]),
        List.find?_cons_of_neg _ (by simpa using he), ih]

theorem countLang_bumpLang (h : List (Str × Nat)) (l l' : Str) :
    countLang (bumpLang h l) l'
      = countLang h l' + (if l = l' then 1 else 0) := by
  unfold bumpLang
  by_cases hany : h.any (fun e => e.1 = l) = true
  · rw [if_pos hany]
    unfold countLang
    rw [find?_map_keys]
    rcases hf : h.find? (fun e => e.1 = l') with _ | e0
    · have hll : l ≠ l' := by
        intro heq
        subst heq
        obtain ⟨e, he, hkey⟩ := List.any_eq_true.mp hany
        have hnone := List.find?_eq_none.mp hf e he
        simp only [decide_eq_true_eq] at hkey hnone
        exact hnone hkey
      rw [hf]
      simp [hll]
    · have hkey : e0.1 = l' := by
        have := List.find?_some hf
        simpa using this
      rw [hf]
      by_cases hll : l = l'
      · subst hll
        simp [hkey]
      · have hne : ¬ e0.1 = l := by rw [hkey]; exact fun hh => hll hh.symm
        simp [hne, hll]
  · rw [if_neg hany]
    unfold countLang
    rw [List.find?_append]
    rcases hf : h.find? (fun e => e.1 = l') with _ | e0
    · rw [hf]
      by_cases hll : l = l'
      · subst hll
        simp
      · rw [List.find?_cons_of_neg _ (by simpa using fun hh => hll hh)]
        simp [hll]
    · have hkey : e0.1 = l' := by
        have := List.find?_some hf
        simpa using this
      have hll : l ≠ l' := by
        intro heq
        subst heq
        exact absurd
          (List.any_eq_true.mpr
            ⟨e0, List.mem_of_find?_eq_some hf, by simp [hkey]⟩) hany
      rw [hf]
      simp [hll]

theorem countLang_foldl (fas : List FileAnalysis) (h : List (Str × Nat))
    (l' : Str) :
    countLang (fas.foldl stepLang h) l'
      = countLang h l'
        + (fas.filter (fun fa => fa.language = some l')).length := by
  induction fas generalizing h with
  | nil => simp
  | cons fa rest ih =>
    rw [List.foldl_cons, ih]
    rcases hl : fa.language with _ | l
    · simp [stepLang, hl, List.filter_cons]
    · by_cases hll : l = l'
      · subst hll
        simp [stepLang, hl, countLang_bumpLang, List.filter_cons]
        omega
      · simp [stepLang, hl, countLang_bumpLang, hll, List.filter_cons]

theorem mem_insertDep {ds : List Str} {d x : Str} :
    x ∈ insertDep ds d ↔ x ∈ ds ∨ x = d := by
  unfold insertDep
  by_cases hd : d ∈ ds
  · rw [if_pos hd]
    constructor
    · exact Or.inl
    · rintro (h | rfl)
      · exact h
      · exact hd
  · rw [if_neg hd]
    simp

theorem mem_unionDeps {ds new : List Str} {x : Str} :
    x ∈ unionDeps ds new ↔ x ∈ ds ∨ x ∈ new := by
  induction new generalizing ds with
  | nil => simp [unionDeps]
  | cons d rest ih =>
    unfold unionDeps at ih ⊢
    rw [List.foldl_cons, ih]
    rw [mem_insertDep]
    constructor
    · rintro ((h | rfl) | h)
      · exact Or.inl h
      · exact Or.inr (by simp)
      · exact Or.inr (by simp [h])
    · rintro (h | h)
      · exact Or.inl (Or.inl h)
      · rcases List.mem_cons.mp h with rfl | h
        · exact Or.inl (Or.inr rfl)
        · exact Or.inr h

theorem mem_foldl_unionDeps {fas : List FileAnalysis} {ds : List Str}
    {x : Str} :
    x ∈ fas.foldl (fun ds fa => unionDeps ds fa.dependencies) ds ↔
      x ∈ ds ∨ ∃ fa ∈ fas, x ∈ fa.dependencies := by
  induction fas generalizing ds with
  | nil => simp
  | cons fa rest ih =>
    rw [List.foldl_cons, ih, mem_unionDeps]
    constructor
    · rintro ((h | h) | ⟨fa2, hfa2, h⟩)
      · exact Or.inl h
      · exact Or.inr ⟨fa, by simp, h⟩
      · exact Or.inr ⟨fa2, by simp [hfa2], h⟩
    · rintro (h | ⟨fa2, hfa2, h⟩)
      · exact Or.inl (Or.inl h)
      · rcases List.mem_cons.mp hfa2 with rfl | hfa2
        · exact Or.inl (Or.inr h)
        · exact Or.inr ⟨fa2, hfa2, h⟩

/-- **C8**: over any file list and any per-file analyzer outcome, the scan
records each failing survivor as a (path, message) entry of the error list,
keeps visiting the remaining files, and its aggregate — the analysis list,
file count, line total, language histogram, and dependency union — is
exactly the aggregate of the successfully analyzed survivors. -/
theorem C8_scan_isolates_failures (ig tx : FPath → Bool)
    (an : FPath → Except Str FileAnalysis) (files : List FPath) :
    (analyzeProject ig tx an files).errors = errEntries ig tx an files ∧
    (analyzeProject ig tx an files).files = okAnalyses ig tx an files ∧
    (analyzeProject ig tx an files).total_files
      = (okAnalyses ig tx an files).length ∧
    (analyzeProject ig tx an files).total_lines
      = ((okAnalyses ig tx an files).map FileAnalysis.line_count).sum ∧
    (∀ lang, countLang (analyzeProject ig tx an files).languages lang
      = ((okAnalyses ig tx an files).filter
          (fun fa => fa.language = some lang)).length) ∧
    (∀ d, d ∈ (analyzeProject ig tx an files).dependencies ↔
      ∃ fa ∈ okAnalyses ig tx an files, d ∈ fa.dependencies) := by
  unfold analyzeProject
  rw [analyzeLoop_spec]
  refine ⟨by simp, by simp, by simp, by simp, ?_, ?_⟩
  · intro lang
    simp only
    rw [countLang_foldl]
    simp [countLang]
  · intro d
    simp only
    rw [(List.perm_insertionSort strLeProp _).mem_iff, mem_foldl_unionDeps]
    simp

/-! ### Claims C5, C6, C9: the classifier -/

/-- The maximum of the second components (0 on the empty list). -/
def maxOfSnd (l : List (Str × Nat)) : Nat := (l.map Prod.snd).foldr max 0

theorem maxOfSnd_cons (x : Str × Nat) (l : List (Str × Nat)) :
    maxOfSnd (x :: l) = max x.2 (maxOfSnd l) := rfl

/-- Python's first-maximum `max` loop finds the first pair attaining the
maximum value. -/
theorem pyMaxPair_find (rest : List (Str × Nat)) :
    ∀ best, some (pyMaxPair rest best)
      = (best :: rest).find? (fun e => e.2 = maxOfSnd (best :: rest)) := by
  induction rest with
  | nil =>
    intro best
    rw [List.find?_cons_of_pos _ (by simp [maxOfSnd_cons, maxOfSnd])]
    rfl
  | cons e rest ih =>
    intro best
    have hM : maxOfSnd (best :: e :: rest)
        = max best.2 (max e.2 (maxOfSnd rest)) := by
      rw [maxOfSnd_cons, maxOfSnd_cons]
    have hM2 : maxOfSnd ((if best.2 < e.2 then e else best) :: rest)
        = max best.2 (max e.2 (maxOfSnd rest)) := by
      rw [maxOfSnd_cons]
      by_cases hlt : best.2 < e.2
      · rw [if_pos hlt]; omega
      · rw [if_neg hlt]; omega
    have hstep : pyMaxPair (e :: rest) best
        = pyMaxPair rest (if best.2 < e.2 then e else best) := rfl
    rw [hstep, ih (if best.2 < e.2 then e else best), hM2, hM]
    by_cases hb : best.2 = max best.2 (max e.2 (maxOfSnd rest))
    · have hble : ¬ best.2 < e.2 := by omega
      rw [if_neg hble,
        List.find?_cons_of_pos _ (by simpa using hb),
        List.find?_cons_of_pos _ (by simpa using hb)]
    · by_cases hce : e.2 = max best.2 (max e.2 (maxOfSnd rest))
      · have hblt : best.2 < e.2 := by omega
        rw [if_pos hblt,
          List.find?_cons_of_pos _ (by simpa using hce),
          List.find?_cons_of_neg _ (by simpa using hb),
          List.find?_cons_of_pos _ (by simpa using hce)]
      · have hne : ¬ (if best.2 < e.2 then e else best).2
            = max best.2 (max e.2 (maxOfSnd rest)) := by
          by_cases hlt : best.2 < e.2
          · rw [if_pos hlt]; exact hce
          · rw [if_neg hlt]; exact hb
        rw [List.find?_cons_of_neg _ (by simpa using hne),
          List.find?_cons_of_neg _ (by simpa using hb),
          List.find?_cons_of_neg _ (by simpa using hce)]

theorem pyMax_find (l : List (Str × Nat)) :
    pyMax l = (l.find? (fun e => e.2 = maxOfSnd l)).map Prod.fst := by
  cases l with
  | nil => rfl
  | cons e rest =>
    have := pyMaxPair_find rest e
    calc pyMax (e :: rest) = (some (pyMaxPair rest e)).map Prod.fst := rfl
      _ = _ := by rw [this]

theorem maxOfSnd_filter_pos (l : List (Str × Nat)) :
    maxOfSnd (l.filter (fun e => 0 < e.2)) = maxOfSnd l := by
  induction l with
  | nil => rfl
  | cons e rest ih =>
    by_cases he : 0 < e.2
    · rw [List.filter_cons_of_pos (by simpa using he), maxOfSnd_cons,
        maxOfSnd_cons, ih]
    · rw [List.filter_cons_of_neg (by simpa using he), maxOfSnd_cons, ih]
      omega

theorem find?_filter_of_imp {p q : (Str × Nat) → Bool}
    (l : List (Str × Nat)) (himp : ∀ x, p x = true → q x = true) :
    (l.filter q).find? p = l.find? p := by
  induction l with
  | nil => rfl
  | cons e rest ih =>
    by_cases hq : q e = true
    · rw [List.filter_cons_of_pos hq]
      by_cases hp : p e = true
      · rw [List.find?_cons_of_pos _ hp, List.find?_cons_of_pos _ hp]
      · rw [List.find?_cons_of_neg _ (by simpa using hp),
          List.find?_cons_of_neg _ (by simpa using hp), ih]
    · rw [List.filter_cons_of_neg hq]
      have hp : ¬ p e = true := fun hh => hq (himp e hh)
      rw [List.find?_cons_of_neg _ (by simpa using hp), ih]

theorem maxOfSnd_zero_all {l : List (Str × Nat)} (h : maxOfSnd l = 0) :
    ∀ e ∈ l, e.2 = 0 := by
  induction l with
  | nil => simp
  | cons e rest ih =>
    rw [maxOfSnd_cons] at h
    intro x hx
    rcases List.mem_cons.mp hx with rfl | hx
    · omega
    · exact ih (by omega) x hx

/-- `detect_language` as the specification words it: the language whose
extension table contains the lowercased suffix is returned outright without
scoring; otherwise every language is scored and the language with the
maximum score is returned, ties broken by table iteration order (first
maximum wins), with `none` when every language scores zero. -/
def specDetectLanguage (p : FPath) (content : Str) : Option Str :=
  match LANGUAGE_PATTERNS.find? (fun e => pyLower p.ext ∈ e.2.extensions) with
  | some e => some e.1
  | none =>
    if maxOfSnd (LANGUAGE_PATTERNS.map
        (fun e => (e.1, langScore e.2 content))) = 0 then none
    else
      ((LANGUAGE_PATTERNS.map (fun e => (e.1, langScore e.2 content))).find?
          (fun e => e.2 = maxOfSnd (LANGUAGE_PATTERNS.map
            (fun e => (e.1, langScore e.2 content))))).map Prod.fst

/-- **C5**: `detect_language` agrees everywhere with the claim's
description: an extension-table hit is authoritative and returned without
scoring, and otherwise the first language attaining the maximum
2-per-pattern-match plus 1-per-keyword score is returned, with `none`
exactly when every language scores zero.  (The code's loop only inserts
positively scored languages and then takes Python's first-maximum `max`;
the proof shows this equals the spec's argmax over all languages.) -/
theorem C5_detect_language_agrees_with_spec (p : FPath) (content : Str) :
    detectLanguage p content = specDetectLanguage p content := by
  rcases hf : LANGUAGE_PATTERNS.find?
      (fun e => pyLower p.ext ∈ e.2.extensions) with _ | e <;>
    simp only [detectLanguage, specDetectLanguage, hf]
  set l := LANGUAGE_PATTERNS.map (fun e => (e.1, langScore e.2 content))
    with hl
  by_cases hz : maxOfSnd l = 0
  · rw [if_pos hz]
    have hnil : l.filter (fun e => 0 < e.2) = [] := by
      apply List.filter_eq_nil_iff.mpr
      intro e he
      have := maxOfSnd_zero_all hz e he
      simp [this]
    rw [hnil]
    rfl
  · rw [if_neg hz, pyMax_find, maxOfSnd_filter_pos,
      find?_filter_of_imp _ (fun x hx => by
        simp only [decide_eq_true_eq] at hx ⊢
        omega)]

/-- **C9**: with supplied (non-`None`) content, `detect_language` is a pure
function of the path and the content: its result is independent of the
filesystem it would otherwise have to read, and equals the pure
`detectLanguage`. -/
theorem C9_detect_language_deterministic (fs1 fs2 : FS) (p : FPath)
    (c : Str) :
    detectLanguageFS fs1 p (some c) = detectLanguageFS fs2 p (some c) ∧
    detectLanguageFS fs1 p (some c) = .ok (detectLanguage p c) := by
  constructor
  · rfl
  · rcases hf : LANGUAGE_PATTERNS.find?
        (fun e => pyLower p.ext ∈ e.2.extensions) with _ | e <;>
      simp only [detectLanguageFS, detectLanguage, hf]

/-- `extract_dependencies` as the claim words it: collect the capture
groups, discard entries starting with `.`, deduplicate, sort ascending —
with no whitespace stripping and no discarding of blank captures. -/
def specExtractDependencies (p : FPath) (content : Str) : List Str :=
  match detectLanguage p content with
  | none => []
  | some lang =>
    ((((((DEPENDENCY_PATTERNS.find? (fun e => e.1 = lang)).map
              Prod.snd).getD []).map
            (fun re => findallGroup1 re content)).flatten.filter
          (fun d => decide (¬ d.head? = some '.'))).foldl insertDep
        []).insertionSort strLeProp

/-- `extract_dependencies` as amended: each capture is first stripped of
leading and trailing whitespace, and empty results are discarded along with
relative imports, before deduplication and sorting. -/
def specExtractDepsStripped (p : FPath) (content : Str) : List Str :=
  match detectLanguage p content with
  | none => []
  | some lang =>
    (((((((DEPENDENCY_PATTERNS.find? (fun e => e.1 = lang)).map
                Prod.snd).getD []).map
              (fun re => findallGroup1 re content)).flatten.map
            pyStrip).filter
          (fun d => decide (d ≠ [] ∧ ¬ d.head? = some '.'))).foldl insertDep
        []).insertionSort strLeProp

def c6p : FPath := [lit "a.js"]

def c6content : Str := lit "import x from \" \""

/-- **C6 counterexample**: for `a.js` with content `import x from " "`,
the claim's pipeline keeps the captured single-space module name `" "`
(it does not start with a dot), but `extract_dependencies` strips each
capture first and discards the now-empty entry, returning `[]`. -/
theorem C6_counterexample_unstripped :
    extractDependencies c6p c6content = [] ∧
      specExtractDependencies c6p c6content = [lit " "] ∧
      ¬ extractDependencies c6p c6content
          = specExtractDependencies c6p c6content := by
  refine ⟨by decide, by decide, ?_⟩
  intro h
  rw [show extractDependencies c6p c6content = [] from by decide,
    show specExtractDependencies c6p c6content = [lit " "] from by decide]
    at h
  simp [lit] at h

theorem foldl_addDep_filter (ms : List Str) :
    ∀ ds, ms.foldl addDep ds
      = (((ms.map pyStrip).filter
          (fun d => decide (d ≠ [] ∧ ¬ d.head? = some '.')))).foldl
            insertDep ds := by
  induction ms with
  | nil => intro ds; rfl
  | cons m rest ih =>
    intro ds
    rw [List.foldl_cons, ih (addDep ds m), List.map_cons]
    by_cases hok : pyStrip m ≠ [] ∧ ¬ (pyStrip m).head? = some '.'
    · rw [List.filter_cons_of_pos (by simpa using hok), List.foldl_cons]
      unfold addDep
      rw [if_pos hok]
    · rw [List.filter_cons_of_neg (by simpa using hok)]
      unfold addDep
      rw [if_neg hok]

theorem foldl_patterns_addDep (g : RE → List Str) (pats : List RE) :
    ∀ ds, pats.foldl (fun ds re => (g re).foldl addDep ds) ds
      = ((((pats.map g).flatten.map pyStrip).filter
          (fun d => decide (d ≠ [] ∧ ¬ d.head? = some '.')))).foldl
            insertDep ds := by
  induction pats with
  | nil => intro ds; rfl
  | cons re rest ih =>
    intro ds
    rw [List.foldl_cons, ih, List.map_cons, List.flatten_cons, List.map_append,
      List.filter_append, List.foldl_append, foldl_addDep_filter]

/-- **C6** (amended): `extract_dependencies` applies the detected
language's import patterns to the full supplied content, strips each
captured group of
surrounding whitespace, discards empty results and entries starting with
`.`, deduplicates, and returns them sorted ascending. -/
theorem C6_extract_dependencies_stripped (p : FPath) (content : Str) :
    extractDependencies p content = specExtractDepsStripped p content := by
  rcases hd : detectLanguage p content with _ | lang <;>
    simp only [extractDependencies, specExtractDepsStripped, hd]
  rw [foldl_patterns_addDep]

/-- **C10 witness**: a successfully sampled NUL-free file at a neutral
extension is classified as text. -/
theorem C10_probe_nul_iff_witness :
    (pyLower (FPath.ext [lit "a.weird"]) ∉ BINARY_EXTENSIONS ∧
      pyLower (FPath.ext [lit "a.weird"]) ∉ TEXT_EXTENSIONS ∧
      probeEnv1.mimeGuess [lit "a.weird"] = none) ∧
    (isTextFile probeEnv1 [lit "a.weird"] = true ↔
      ∃ s, probeEnv1.sample [lit "a.weird"] = some s ∧ (0 : Nat) ∉ s) :=
  ⟨⟨by decide, by decide, rfl⟩,
    C10_probe_nul_iff probeEnv1 [lit "a.weird"] (by decide) (by decide) rfl⟩

end ACA
